import Mathlib

/-!
# Verification of the PIK codec core (pik.cc, yuv_convert.cc, compressed_image.h)

Shallow embedding of the rate-control loop, the Y-to-B optimizers, the
target-size controller, the mode-selecting pipelines and the YUV conversions.
C `float`/`double` values are modelled as rationals (`ℚ`), machine integers as
`ℕ`/`ℤ`, two-dimensional float images as rectangular lists of rows
(`List (List ℚ)`), and the external collaborators (butteraugli comparator,
entropy coder, header codec, block quantizer) as oracles quantified over in the
theorems, since their implementations live outside the analysed sources.
-/

/-! ## Rectangular images: `ImageF` modelled as a list of rows -/

/-- A float image: a list of rows, each row a list of rational pixel values. -/
abbrev Img : Type := List (List ℚ)

/-- `image.ysize()`: number of rows. -/
def iYs (m : Img) : ℕ := m.length

/-- `image.xsize()`: length of the first row (rows are kept rectangular). -/
def iXs (m : Img) : ℕ := (m.headD []).length

/-- Read pixel `(y, x)`; out-of-range reads return 0 (never reached on the
in-range accesses performed by the embedded code). -/
def iGet (m : Img) (y x : ℕ) : ℚ := (m.getD y []).getD x 0

/-- Write pixel `(y, x)` in place (no-op out of range, as `List.set`). -/
def iSet (m : Img) (y x : ℕ) (v : ℚ) : Img :=
  m.set y ((m.getD y []).set x v)

/-- The image is a rectangle of `ys` rows of length `xs` each. -/
def Rect (m : Img) (xs ys : ℕ) : Prop :=
  m.length = ys ∧ ∀ row ∈ m, row.length = xs

/-- The half-open integer range `[a, b)` as a list, for C `for` loops. -/
def rangeFT (a b : ℕ) : List ℕ := (List.range (b - a)).map (a + ·)

theorem mem_rangeFT {a b i : ℕ} : i ∈ rangeFT a b ↔ a ≤ i ∧ i < b := by
  unfold rangeFT
  simp only [List.mem_map, List.mem_range]
  constructor
  · rintro ⟨j, hj, rfl⟩; omega
  · rintro ⟨h1, h2⟩; exact ⟨i - a, by omega, by omega⟩

theorem length_iSet (m : Img) (y x : ℕ) (v : ℚ) :
    (iSet m y x v).length = m.length := by
  unfold iSet; exact List.length_set ..

theorem rect_iSet {m : Img} {xs ys : ℕ} (h : Rect m xs ys) (y x : ℕ) (v : ℚ) :
    Rect (iSet m y x v) xs ys := by
  obtain ⟨hlen, hrow⟩ := h
  by_cases hy : y < m.length
  · refine ⟨by rw [length_iSet]; exact hlen, ?_⟩
    intro row hr
    unfold iSet at hr
    rcases List.mem_or_eq_of_mem_set hr with h | h
    · exact hrow row h
    · subst h
      rw [List.length_set, List.getD_eq_getElem m [] hy]
      exact hrow _ (List.getElem_mem hy)
  · unfold iSet
    rw [List.set_eq_of_length_le (by omega)]
    exact ⟨hlen, hrow⟩

theorem iGet_iSet (m : Img) {xs ys : ℕ} (hm : Rect m xs ys)
    (y x : ℕ) (hy : y < ys) (hx : x < xs) (v : ℚ) (y2 x2 : ℕ) :
    iGet (iSet m y x v) y2 x2 = if y = y2 ∧ x = x2 then v else iGet m y2 x2 := by
  obtain ⟨hlen, hrow⟩ := hm
  have hylen : y < m.length := by omega
  have hrowlen : (m.getD y []).length = xs := by
    rw [List.getD_eq_getElem m [] hylen]
    exact hrow _ (List.getElem_mem hylen)
  have hxrow : x < (m.getD y []).length := by omega
  unfold iGet iSet
  by_cases hyy : y = y2
  · subst hyy
    have h1 : y < (m.set y ((m.getD y []).set x v)).length := by
      rw [List.length_set]; exact hylen
    rw [List.getD_eq_getElem _ [] h1, List.getElem_set_self h1]
    by_cases hxx : x = x2
    · subst hxx
      simp only [and_self, if_true]
      have h2 : x < ((m.getD y []).set x v).length := by
        rw [List.length_set]; exact hxrow
      rw [List.getD_eq_getElem _ 0 h2]
      exact List.getElem_set_self h2
    · simp only [hxx, and_false, if_false]
      by_cases hx2 : x2 < xs
      · have h2 : x2 < ((m.getD y []).set x v).length := by
          rw [List.length_set]; omega
        rw [List.getD_eq_getElem _ 0 h2,
          List.getD_eq_getElem _ 0 (by omega : x2 < (m.getD y []).length)]
        exact List.getElem_set_ne hxx h2
      · rw [List.getD_eq_default _ 0 (by rw [List.length_set]; omega),
          List.getD_eq_default _ 0 (by omega)]
  · simp only [hyy, false_and, if_false]
    by_cases hy2 : y2 < m.length
    · have h1 : y2 < (m.set y ((m.getD y []).set x v)).length := by
        rw [List.length_set]; exact hy2
      rw [List.getD_eq_getElem _ [] h1, List.getD_eq_getElem m [] hy2]
      congr 1
      exact List.getElem_set_ne hyy h1
    · rw [List.getD_eq_default _ [] (by rw [List.length_set]; omega),
        List.getD_eq_default m [] (by omega)]

/-! ## `AdjustQuantVal` (pik.cc lines 131-139)

```
bool AdjustQuantVal(float* q, const float d, const float factor,
                    const float quant_max) {
  if (*q >= 0.999f * quant_max) return false;
  const float inv_q = 1.0f / *q;
  const float adj_inv_q = inv_q - factor / (d + 1.0f);
  *q = 1.0f / std::max(1.0f / quant_max, adj_inv_q);
  return true;
}
```
Returned as (new value of `*q`, changed flag). -/

def adjustQuantVal (q d factor quant_max : ℚ) : ℚ × Bool :=
  if 999 / 1000 * quant_max ≤ q then (q, false)
  else
    let inv_q := 1 / q
    let adj_inv_q := inv_q - factor / (d + 1)
    (1 / max (1 / quant_max) adj_inv_q, true)

/-- C2, counterexample: at `q = 1, d = 0, factor = 0, qmax = 4` (all
preconditions hold) `AdjustQuantVal` returns `true` yet leaves `q = 1`
unchanged, falsifying "returns false iff it did not modify `*q`", and
`1/q = 1 > 1/4 = 1/qmax` after the call, falsifying "after any call
`1/q ≤ 1/qmax`". -/
theorem c2_adjustQuantVal_cex :
    (0 : ℚ) < 1 ∧ (0 : ℚ) ≤ 0 ∧ (0 : ℚ) < 4 ∧
    ¬ ((((adjustQuantVal 1 0 0 4).2 = false) ↔ (adjustQuantVal 1 0 0 4).1 = 1) ∧
       ((1 : ℚ) < 999 / 1000 * 4 →
         adjustQuantVal 1 0 0 4 = (1 / max (1 / 4) (1 / 1 - 0 / (0 + 1)), true)) ∧
       1 / (adjustQuantVal 1 0 0 4).1 ≤ 1 / (4 : ℚ)) := by
  refine ⟨by norm_num, le_refl _, by norm_num, ?_⟩
  intro ⟨h1, _h2, h3⟩
  have hval : adjustQuantVal 1 0 0 4 = (1, true) := by
    unfold adjustQuantVal
    norm_num
  rw [hval] at h3
  norm_num at h3

/-- C2, amended: for `q > 0`, `d ≥ 0`, `qmax > 0`: the call returns `false`
iff `q ≥ 0.999·qmax`, in which case `q` is unmodified; when `q < 0.999·qmax`
it sets `q := 1 / max (1/qmax) (1/q − factor/(d+1))` and returns `true`, and
after such a modifying call `1/qmax ≤ 1/q` (that is, `q ≤ qmax`). -/
theorem c2_adjustQuantVal_amended (q d factor qmax : ℚ)
    (hq : 0 < q) (hd : 0 ≤ d) (hqm : 0 < qmax) :
    ((adjustQuantVal q d factor qmax).2 = false ↔ 999 / 1000 * qmax ≤ q) ∧
    ((adjustQuantVal q d factor qmax).2 = false →
      (adjustQuantVal q d factor qmax).1 = q) ∧
    (q < 999 / 1000 * qmax →
      adjustQuantVal q d factor qmax =
        (1 / max (1 / qmax) (1 / q - factor / (d + 1)), true)) ∧
    ((adjustQuantVal q d factor qmax).2 = true →
      1 / qmax ≤ 1 / (adjustQuantVal q d factor qmax).1 ∧
      (adjustQuantVal q d factor qmax).1 ≤ qmax) := by
  by_cases h : 999 / 1000 * qmax ≤ q
  · have hval : adjustQuantVal q d factor qmax = (q, false) := by
      unfold adjustQuantVal; rw [if_pos h]
    rw [hval]
    exact ⟨iff_of_true rfl h, fun _ => rfl,
      fun hlt => absurd h (not_le.mpr hlt), fun hc => by simp at hc⟩
  · have hval : adjustQuantVal q d factor qmax =
        (1 / max (1 / qmax) (1 / q - factor / (d + 1)), true) := by
      unfold adjustQuantVal; rw [if_neg h]
    rw [hval]
    refine ⟨iff_of_false (by simp) h, by simp, fun _ => rfl, fun _ => ?_⟩
    have hMge : 1 / qmax ≤ max (1 / qmax) (1 / q - factor / (d + 1)) :=
      le_max_left _ _
    constructor
    · show 1 / qmax ≤ 1 / (1 / max (1 / qmax) (1 / q - factor / (d + 1)))
      rw [one_div_one_div]
      exact hMge
    · show 1 / max (1 / qmax) (1 / q - factor / (d + 1)) ≤ qmax
      have h2 := one_div_le_one_div_of_le
        (show (0 : ℚ) < 1 / qmax by positivity) hMge
      rwa [one_div_one_div] at h2

/-- Witness for the amended C2 theorem at `q = 2, d = 1, factor = 3, qmax = 4`. -/
theorem c2_adjustQuantVal_amended_witness :
    (0 : ℚ) < 2 ∧ (0 : ℚ) ≤ 1 ∧ (0 : ℚ) < 4 ∧
    ((adjustQuantVal 2 1 3 4).2 = true →
      1 / (4 : ℚ) ≤ 1 / (adjustQuantVal 2 1 3 4).1 ∧
      (adjustQuantVal 2 1 3 4).1 ≤ 4) :=
  ⟨by norm_num, by norm_num, by norm_num,
    (c2_adjustQuantVal_amended 2 1 3 4 (by norm_num) (by norm_num)
      (by norm_num)).2.2.2⟩

/-! ## YUV conversions (yuv_convert.cc)

Matrices and the `clamp` macro, lines 30-122.  The C cast
`(uint16_t)(double)` truncates the (already clamped, hence non-negative)
value toward zero, modelled by `Int.floor` followed by `Int.toNat`. -/

def kWeightR : ℚ := 2126 / 10000
def kWeightB : ℚ := 722 / 10000
def kWeightG : ℚ := 1 - kWeightR - kWeightB
def kWeightBc : ℚ := 1 - kWeightB
def kWeightRc : ℚ := 1 - kWeightR
def kScaleY : ℚ := 219 / 255
def kScaleUV : ℚ := 112 / 255

def RGBtoYUVMatrix : List ℚ :=
  [kWeightR * kScaleY, kWeightG * kScaleY, kWeightB * kScaleY,
   (-kWeightR / kWeightBc) * kScaleUV, (-kWeightG / kWeightBc) * kScaleUV,
   kScaleUV,
   kScaleUV, (-kWeightG / kWeightRc) * kScaleUV,
   (-kWeightB / kWeightRc) * kScaleUV]

def RGBtoYUVMatrixAdd : List ℚ := [1 / 16, 1 / 2, 1 / 2]

def YUVtoRGBMatrix : List ℚ :=
  [1 / kScaleY, 0, kWeightRc / kScaleUV,
   1 / kScaleY, -kWeightBc * kWeightB / kWeightG / kScaleUV,
   -kWeightRc * kWeightR / kWeightG / kScaleUV,
   1 / kScaleY, kWeightBc / kScaleUV, 0]

/-- `#define clamp(V, M) (uint16_t)((V) < 0 ? 0 : ((V) > (M) ? (M) : V))`
with the final integer cast. -/
def clampPix (v M : ℚ) : ℕ :=
  (Int.toNat ⌊if v < 0 then 0 else if M < v then M else v⌋)

/-- `YUVPixelToRGB` (double version), lines 68-77. -/
def yuvPixelToRGBReal (yv uv vv : ℕ) (bits : ℕ) : ℚ × ℚ × ℚ :=
  let norm : ℚ := 1 / ((2 : ℚ) ^ bits - 1)
  let y : ℚ := yv * norm - RGBtoYUVMatrixAdd.getD 0 0
  let u : ℚ := uv * norm - RGBtoYUVMatrixAdd.getD 1 0
  let v : ℚ := vv * norm - RGBtoYUVMatrixAdd.getD 2 0
  (YUVtoRGBMatrix.getD 0 0 * y + YUVtoRGBMatrix.getD 1 0 * u +
     YUVtoRGBMatrix.getD 2 0 * v,
   YUVtoRGBMatrix.getD 3 0 * y + YUVtoRGBMatrix.getD 4 0 * u +
     YUVtoRGBMatrix.getD 5 0 * v,
   YUVtoRGBMatrix.getD 6 0 * y + YUVtoRGBMatrix.getD 7 0 * u +
     YUVtoRGBMatrix.getD 8 0 * v)

/-- Typed `YUVPixelToRGB<T>`, lines 80-89; `bytes` plays `sizeof(T)`. -/
def yuvPixelToRGBTyped (yv uv vv : ℕ) (bits bytes : ℕ) : ℕ × ℕ × ℕ :=
  let maxv_out : ℚ := (2 : ℚ) ^ (8 * bytes) - 1
  let rgb := yuvPixelToRGBReal yv uv vv bits
  (clampPix (1 / 2 + maxv_out * rgb.1) maxv_out,
   clampPix (1 / 2 + maxv_out * rgb.2.1) maxv_out,
   clampPix (1 / 2 + maxv_out * rgb.2.2) maxv_out)

/-- `RGBPixelToYUV` (double version), lines 93-111. -/
def rgbPixelToYUV (r g b : ℚ) (bits : ℕ) : ℕ × ℕ × ℕ :=
  let maxv : ℚ := (2 : ℚ) ^ bits - 1
  let Y : ℚ := RGBtoYUVMatrixAdd.getD 0 0 + RGBtoYUVMatrix.getD 0 0 * r +
    RGBtoYUVMatrix.getD 1 0 * g + RGBtoYUVMatrix.getD 2 0 * b
  let U : ℚ := RGBtoYUVMatrixAdd.getD 1 0 + RGBtoYUVMatrix.getD 3 0 * r +
    RGBtoYUVMatrix.getD 4 0 * g + RGBtoYUVMatrix.getD 5 0 * b
  let V : ℚ := RGBtoYUVMatrixAdd.getD 2 0 + RGBtoYUVMatrix.getD 6 0 * r +
    RGBtoYUVMatrix.getD 7 0 * g + RGBtoYUVMatrix.getD 8 0 * b
  (clampPix (1 / 2 + maxv * Y) maxv,
   clampPix (1 / 2 + maxv * U) maxv,
   clampPix (1 / 2 + maxv * V) maxv)

theorem clampPix_le (v : ℚ) (n : ℕ) : clampPix v ((n : ℚ)) ≤ n := by
  unfold clampPix
  split_ifs with h1 h2
  · simp
  · have : ⌊(n : ℚ)⌋ = (n : ℤ) := by exact_mod_cast Int.floor_intCast n
    simp [this]
  · have h3 : ⌊v⌋ ≤ ⌊(n : ℚ)⌋ := Int.floor_le_floor (not_lt.mp h2)
    have h4 : ⌊(n : ℚ)⌋ = (n : ℤ) := by exact_mod_cast Int.floor_intCast n
    omega

theorem pow_sub_one_cast (k : ℕ) : (((2 ^ k - 1 : ℕ) : ℚ)) = (2 : ℚ) ^ k - 1 := by
  have h : (1 : ℕ) ≤ 2 ^ k := Nat.one_le_two_pow
  push_cast [h]
  ring

/-- C10: every component of `RGBPixelToYUV` lies in `[0, 2^bits − 1]` for any
real RGB input, and every component of the typed `YUVPixelToRGB` lies in
`[0, 2^(8·sizeof T) − 1]` for any YUV input: both conversions clamp the
rounded value to the representable range before storing.  (Lower bounds are
inherent: the outputs are naturals.) -/
theorem c10_yuv_conversions_clamped (r g b : ℚ) (bits : ℕ)
    (yv uv vv : ℕ) (bits2 bytes : ℕ) :
    (rgbPixelToYUV r g b bits).1 ≤ 2 ^ bits - 1 ∧
    (rgbPixelToYUV r g b bits).2.1 ≤ 2 ^ bits - 1 ∧
    (rgbPixelToYUV r g b bits).2.2 ≤ 2 ^ bits - 1 ∧
    (yuvPixelToRGBTyped yv uv vv bits2 bytes).1 ≤ 2 ^ (8 * bytes) - 1 ∧
    (yuvPixelToRGBTyped yv uv vv bits2 bytes).2.1 ≤ 2 ^ (8 * bytes) - 1 ∧
    (yuvPixelToRGBTyped yv uv vv bits2 bytes).2.2 ≤ 2 ^ (8 * bytes) - 1 := by
  have h1 := pow_sub_one_cast bits
  have h2 := pow_sub_one_cast (8 * bytes)
  unfold rgbPixelToYUV yuvPixelToRGBTyped
  simp only
  rw [← h1, ← h2]
  exact ⟨clampPix_le _ _, clampPix_le _ _, clampPix_le _ _,
    clampPix_le _ _, clampPix_le _ _, clampPix_le _ _⟩

/-! ## `TileDistMap` (pik.cc lines 78-97)

Reduces the butteraugli per-pixel distance map to the per-block (8x8 tile)
maximum; `max_dist` starts at 0. -/

def tileDistMap (distmap : Img) (tile_size : ℕ) : Img :=
  let tile_xsize := (iXs distmap + tile_size - 1) / tile_size
  let tile_ysize := (iYs distmap + tile_size - 1) / tile_size
  (List.range tile_ysize).map (fun tile_y =>
    (List.range tile_xsize).map (fun tile_x =>
      (rangeFT (tile_size * tile_y)
          (min (iYs distmap) (tile_size * (tile_y + 1)))).foldl
        (fun acc y =>
          (rangeFT (tile_size * tile_x)
              (min (iXs distmap) (tile_size * (tile_x + 1)))).foldl
            (fun acc2 x => max acc2 (iGet distmap y x)) acc) 0))

/-! ## `DistToPeakMap` (pik.cc lines 99-129)

For each cell, the clamped `(2·radius+1)`-square neighborhood is scanned for
its maximum (seeded with `peak_min`); if the cell exceeds
`(1 − peak_weight)·peak_min + peak_weight·local_max` it is a peak and the
Chebyshev distance to it is written into every neighborhood cell, keeping the
minimum across overlapping peaks; untouched cells keep the initial `-1`. -/

/-- `|a - b|` on naturals. -/
def natDist (a b : ℕ) : ℕ := max (a - b) (b - a)

/-- `std::max(std::abs(y - y0), std::abs(x - x0))`: Chebyshev distance. -/
def chebDist (y x y0 x0 : ℕ) : ℕ := max (natDist y y0) (natDist x x0)

/-- The maximum of `field` over the clamped neighborhood of `(y0, x0)`,
seeded with `peak_min` (`local_max` in the source). -/
def localMax (field : Img) (peak_min : ℚ) (y0 x0 radius : ℕ) : ℚ :=
  (rangeFT (y0 - radius) (min (iYs field) (y0 + 1 + radius))).foldl
    (fun acc y =>
      (rangeFT (x0 - radius) (min (iXs field) (x0 + 1 + radius))).foldl
        (fun acc2 x => max acc2 (iGet field y x)) acc) peak_min

/-- The peak test
`field.Row(y0)[x0] > (1 - peak_weight) * peak_min + peak_weight * local_max`. -/
def isPeak (field : Img) (peak_min : ℚ) (radius : ℕ) (w : ℚ) (y0 x0 : ℕ) : Prop :=
  (1 - w) * peak_min + w * localMax field peak_min y0 x0 radius <
    iGet field y0 x0

instance (field : Img) (peak_min : ℚ) (radius : ℕ) (w : ℚ) (y0 x0 : ℕ) :
    Decidable (isPeak field peak_min radius w y0 x0) := by
  unfold isPeak; infer_instance

/-- The cells of the clamped neighborhood of `(y0, x0)`, in row-major order. -/
def nbhdCells (ys xs y0 x0 radius : ℕ) : List (ℕ × ℕ) :=
  (rangeFT (y0 - radius) (min ys (y0 + 1 + radius))).bind (fun y =>
    (rangeFT (x0 - radius) (min xs (x0 + 1 + radius))).map (fun x => (y, x)))

/-- The body of the peak-propagation loop: overwrite a cell with the
Chebyshev distance to the peak when unset (`< 0`) or larger. -/
def writeCell (y0 x0 : ℕ) (acc : Img) (yx : ℕ × ℕ) : Img :=
  if iGet acc yx.1 yx.2 < 0 ∨
      ((chebDist yx.1 yx.2 y0 x0 : ℕ) : ℚ) < iGet acc yx.1 yx.2 then
    iSet acc yx.1 yx.2 ((chebDist yx.1 yx.2 y0 x0 : ℕ) : ℚ)
  else acc

/-- Propagate the peak at `(y0, x0)` into its neighborhood. -/
def peakWrite (ys xs y0 x0 radius : ℕ) (m : Img) : Img :=
  (nbhdCells ys xs y0 x0 radius).foldl (writeCell y0 x0) m

/-- Raster-order coordinates of a `ys` by `xs` image. -/
def coordList (ys xs : ℕ) : List (ℕ × ℕ) :=
  (List.range ys).bind (fun y => (List.range xs).map (fun x => (y, x)))

/-- The body of the main loop of `DistToPeakMap`: test the cell for a peak
and, if so, propagate it. -/
def peakStep (field : Img) (peak_min : ℚ) (radius : ℕ) (w : ℚ)
    (m : Img) (yx : ℕ × ℕ) : Img :=
  if isPeak field peak_min radius w yx.1 yx.2 then
    peakWrite (iYs field) (iXs field) yx.1 yx.2 radius m
  else m

def distToPeakMap (field : Img) (peak_min : ℚ) (radius : ℕ) (w : ℚ) : Img :=
  (coordList (iYs field) (iXs field)).foldl
    (peakStep field peak_min radius w)
    (List.replicate (iYs field) (List.replicate (iXs field) (-1 : ℚ)))

theorem mem_nbhdCells {ys xs y0 x0 radius : ℕ} {c : ℕ × ℕ} :
    c ∈ nbhdCells ys xs y0 x0 radius ↔
      chebDist c.1 c.2 y0 x0 ≤ radius ∧ c.1 < ys ∧ c.2 < xs := by
  unfold nbhdCells chebDist natDist
  simp only [List.mem_flatMap, List.mem_map, mem_rangeFT]
  constructor
  · rintro ⟨y, ⟨hy1, hy2⟩, x, ⟨hx1, hx2⟩, rfl⟩
    simp only
    omega
  · rintro ⟨hcheb, h1, h2⟩
    exact ⟨c.1, ⟨by omega, by omega⟩, c.2, ⟨by omega, by omega⟩, rfl⟩

theorem mem_coordList {ys xs : ℕ} {c : ℕ × ℕ} :
    c ∈ coordList ys xs ↔ c.1 < ys ∧ c.2 < xs := by
  unfold coordList
  simp only [List.mem_flatMap, List.mem_map, List.mem_range]
  constructor
  · rintro ⟨y, hy, x, hx, rfl⟩
    exact ⟨hy, hx⟩
  · rintro ⟨h1, h2⟩
    exact ⟨c.1, h1, c.2, h2, rfl⟩

/-- The min-keeping overwrite as a value update. -/
def minUpd (cur dq : ℚ) : ℚ := if cur < 0 ∨ dq < cur then dq else cur

theorem minUpd_idem (v d : ℚ) (hd : 0 ≤ d) : minUpd (minUpd v d) d = minUpd v d := by
  unfold minUpd
  by_cases h : v < 0 ∨ d < v
  · rw [if_pos h, if_neg (by push_neg; exact ⟨hd, le_refl d⟩)]
  · rw [if_neg h, if_neg h]

theorem rect_writeCell {m : Img} {xs ys : ℕ} (hm : Rect m xs ys)
    (y0 x0 : ℕ) (c : ℕ × ℕ) : Rect (writeCell y0 x0 m c) xs ys := by
  unfold writeCell
  split_ifs with h
  · exact rect_iSet hm _ _ _
  · exact hm

theorem iGet_writeCell {m : Img} {xs ys : ℕ} (hm : Rect m xs ys)
    (y0 x0 : ℕ) (c : ℕ × ℕ) (hc1 : c.1 < ys) (hc2 : c.2 < xs) (cy cx : ℕ) :
    iGet (writeCell y0 x0 m c) cy cx =
      if c = (cy, cx) then
        minUpd (iGet m cy cx) ((chebDist cy cx y0 x0 : ℕ) : ℚ)
      else iGet m cy cx := by
  obtain ⟨c1, c2⟩ := c
  simp only at hc1 hc2
  unfold writeCell minUpd
  simp only
  by_cases hc : (c1, c2) = ((cy, cx) : ℕ × ℕ)
  · injection hc with ha hb
    subst ha; subst hb
    simp only [eq_self_iff_true, if_true]
    split_ifs with h
    · rw [iGet_iSet m hm c1 c2 hc1 hc2 _ c1 c2]
      simp
    · rfl
  · have hne : ¬(c1 = cy ∧ c2 = cx) := by
      intro ⟨ha, hb⟩
      exact hc (by rw [ha, hb])
    rw [if_neg hc]
    split_ifs with h
    · rw [iGet_iSet m hm c1 c2 hc1 hc2 _ cy cx, if_neg hne]
    · rfl

theorem rect_foldl_writeCell {m : Img} {xs ys : ℕ} (hm : Rect m xs ys)
    (y0 x0 : ℕ) (L : List (ℕ × ℕ)) :
    Rect (L.foldl (writeCell y0 x0) m) xs ys := by
  induction L generalizing m with
  | nil => exact hm
  | cons c L ih => exact ih (rect_writeCell hm y0 x0 c)

theorem iGet_foldl_writeCell {xs ys : ℕ} (y0 x0 : ℕ) (L : List (ℕ × ℕ))
    (m : Img) (hm : Rect m xs ys)
    (hL : ∀ c ∈ L, c.1 < ys ∧ c.2 < xs) (cy cx : ℕ)
    (hcy : cy < ys) (hcx : cx < xs) :
    iGet (L.foldl (writeCell y0 x0) m) cy cx =
      if (cy, cx) ∈ L then
        minUpd (iGet m cy cx) ((chebDist cy cx y0 x0 : ℕ) : ℚ)
      else iGet m cy cx := by
  induction L generalizing m with
  | nil => simp
  | cons c L ih =>
    obtain ⟨c1, c2⟩ := c
    have hc := hL (c1, c2) (List.mem_cons_self ..)
    have hrest : ∀ d ∈ L, d.1 < ys ∧ d.2 < xs :=
      fun d hd => hL d (List.mem_cons_of_mem _ hd)
    simp only [List.foldl_cons]
    rw [ih _ (rect_writeCell hm y0 x0 (c1, c2)) hrest]
    rw [iGet_writeCell hm y0 x0 (c1, c2) hc.1 hc.2 cy cx]
    by_cases hcc : (c1, c2) = ((cy, cx) : ℕ × ℕ)
    · injection hcc with ha hb
      subst ha; subst hb
      simp only [eq_self_iff_true, if_true, List.mem_cons, true_or]
      by_cases hmem : ((c1, c2) : ℕ × ℕ) ∈ L
      · rw [if_pos hmem]
        exact minUpd_idem _ _ (by positivity)
      · rw [if_neg hmem]
    · rw [if_neg hcc]
      simp only [List.mem_cons]
      have hne : ¬(((cy, cx) : ℕ × ℕ) = (c1, c2)) := fun h => hcc h.symm
      simp only [hne, false_or]

theorem iGet_peakWrite {xs ys : ℕ} (y0 x0 radius : ℕ) (m : Img)
    (hm : Rect m xs ys) (cy cx : ℕ) (hcy : cy < ys) (hcx : cx < xs) :
    iGet (peakWrite ys xs y0 x0 radius m) cy cx =
      if chebDist cy cx y0 x0 ≤ radius then
        minUpd (iGet m cy cx) ((chebDist cy cx y0 x0 : ℕ) : ℚ)
      else iGet m cy cx := by
  unfold peakWrite
  rw [iGet_foldl_writeCell y0 x0 _ m hm
    (fun c hc => ((mem_nbhdCells.mp hc).2)) cy cx hcy hcx]
  congr 1
  rw [eq_iff_iff, mem_nbhdCells]
  simp only
  constructor
  · exact fun h => h.1
  · exact fun h => ⟨h, hcy, hcx⟩

theorem rect_peakWrite {m : Img} {xs ys : ℕ} (hm : Rect m xs ys)
    (ys2 xs2 y0 x0 radius : ℕ) : Rect (peakWrite ys2 xs2 y0 x0 radius m) xs ys :=
  rect_foldl_writeCell hm y0 x0 _

theorem rect_iXs {m : Img} {xs ys : ℕ} (h : Rect m xs ys) (hys : 0 < ys) :
    iXs m = xs := by
  obtain ⟨hlen, hrow⟩ := h
  unfold iXs
  cases m with
  | nil => simp at hlen; omega
  | cons r t => exact hrow r (List.mem_cons_self ..)

theorem rect_replicate (xs ys : ℕ) (v : ℚ) :
    Rect (List.replicate ys (List.replicate xs v)) xs ys := by
  constructor
  · exact List.length_replicate ..
  · intro row hr
    rw [List.eq_of_mem_replicate hr]
    exact List.length_replicate ..

theorem iGet_replicate (xs ys : ℕ) (v : ℚ) (cy cx : ℕ)
    (hcy : cy < ys) (hcx : cx < xs) :
    iGet (List.replicate ys (List.replicate xs v)) cy cx = v := by
  unfold iGet
  rw [List.getD_eq_getElem _ [] (by simpa using hcy), List.getElem_replicate,
    List.getD_eq_getElem _ 0 (by simpa using hcx), List.getElem_replicate]

theorem rect_peakStep {m : Img} {xs ys : ℕ} (hm : Rect m xs ys)
    (field : Img) (pm : ℚ) (radius : ℕ) (w : ℚ) (p : ℕ × ℕ) :
    Rect (peakStep field pm radius w m p) xs ys := by
  unfold peakStep
  split_ifs with h
  · exact rect_peakWrite hm _ _ _ _ _
  · exact hm

/-- The per-cell effect of one `DistToPeakMap` outer iteration on a fixed
target cell `(cy, cx)`. -/
def peakUpd (field : Img) (pm : ℚ) (radius : ℕ) (w : ℚ) (cy cx : ℕ)
    (v : ℚ) (p : ℕ × ℕ) : ℚ :=
  if isPeak field pm radius w p.1 p.2 ∧ chebDist cy cx p.1 p.2 ≤ radius then
    minUpd v ((chebDist cy cx p.1 p.2 : ℕ) : ℚ)
  else v

theorem iGet_peakStep (field : Img) {xs ys : ℕ}
    (hys : iYs field = ys) (hxs : iXs field = xs)
    (pm : ℚ) (radius : ℕ) (w : ℚ) (p : ℕ × ℕ) (m : Img) (hm : Rect m xs ys)
    (cy cx : ℕ) (hcy : cy < ys) (hcx : cx < xs) :
    iGet (peakStep field pm radius w m p) cy cx =
      peakUpd field pm radius w cy cx (iGet m cy cx) p := by
  unfold peakStep peakUpd
  rw [hys, hxs]
  split_ifs with h1 h2 h3
  · rw [iGet_peakWrite p.1 p.2 radius m hm cy cx hcy hcx, if_pos h2.2]
  · rw [iGet_peakWrite p.1 p.2 radius m hm cy cx hcy hcx,
      if_neg (fun hcontra => h2 ⟨h1, hcontra⟩)]
  · exact absurd h3.1 h1
  · rfl

theorem iGet_foldl_peakStep (field : Img) {xs ys : ℕ}
    (hys : iYs field = ys) (hxs : iXs field = xs)
    (pm : ℚ) (radius : ℕ) (w : ℚ) (L : List (ℕ × ℕ)) (m : Img)
    (hm : Rect m xs ys) (cy cx : ℕ) (hcy : cy < ys) (hcx : cx < xs) :
    iGet (L.foldl (peakStep field pm radius w) m) cy cx =
      L.foldl (peakUpd field pm radius w cy cx) (iGet m cy cx) := by
  induction L generalizing m with
  | nil => rfl
  | cons p L ih =>
    simp only [List.foldl_cons]
    rw [ih _ (rect_peakStep hm field pm radius w p),
      iGet_peakStep field hys hxs pm radius w p m hm cy cx hcy hcx]

theorem foldl_peakUpd_eq_filterMap (field : Img) (pm : ℚ) (radius : ℕ)
    (w : ℚ) (cy cx : ℕ) (L : List (ℕ × ℕ)) (v : ℚ) :
    L.foldl (peakUpd field pm radius w cy cx) v =
      ((L.filter (fun p => decide (isPeak field pm radius w p.1 p.2 ∧
          chebDist cy cx p.1 p.2 ≤ radius))).map
        (fun p => ((chebDist cy cx p.1 p.2 : ℕ) : ℚ))).foldl minUpd v := by
  induction L generalizing v with
  | nil => rfl
  | cons p L ih =>
    simp only [List.foldl_cons, List.filter_cons]
    by_cases hp : isPeak field pm radius w p.1 p.2 ∧
      chebDist cy cx p.1 p.2 ≤ radius
    · rw [show peakUpd field pm radius w cy cx v p =
          minUpd v ((chebDist cy cx p.1 p.2 : ℕ) : ℚ) from by
        unfold peakUpd; rw [if_pos hp]]
      simp only [decide_eq_true_eq, hp, if_true, List.map_cons,
        List.foldl_cons]
      exact ih _
    · rw [show peakUpd field pm radius w cy cx v p = v from by
        unfold peakUpd; rw [if_neg hp]]
      simp only [decide_eq_true_eq, hp, if_false]
      exact ih v

theorem foldl_minUpd_pos (ds : List ℚ) (hds : ∀ d ∈ ds, 0 ≤ d)
    (v : ℚ) (hv : 0 ≤ v) :
    ds.foldl minUpd v ∈ v :: ds ∧ ∀ d ∈ v :: ds, ds.foldl minUpd v ≤ d := by
  induction ds generalizing v with
  | nil =>
    refine ⟨List.mem_cons_self .., ?_⟩
    intro d hd
    rcases List.mem_cons.mp hd with rfl | h
    · exact le_refl _
    · simp at h
  | cons d ds ih =>
    have hd0 : 0 ≤ d := hds d (List.mem_cons_self ..)
    have hmin : minUpd v d = min v d := by
      unfold minUpd
      rcases lt_or_le d v with h | h
      · rw [if_pos (Or.inr h), min_eq_right (le_of_lt h)]
      · rw [if_neg (by push_neg; exact ⟨hv, h⟩), min_eq_left h]
    simp only [List.foldl_cons, hmin]
    obtain ⟨hmem, hle⟩ := ih (fun e he => hds e (List.mem_cons_of_mem _ he))
      (min v d) (le_min hv hd0)
    constructor
    · rcases List.mem_cons.mp hmem with he | he
      · rcases min_choice v d with h | h
        · rw [he, h]; exact List.mem_cons_self ..
        · rw [he, h]; exact List.mem_cons_of_mem _ (List.mem_cons_self ..)
      · exact List.mem_cons_of_mem _ (List.mem_cons_of_mem _ he)
    · intro e he
      rcases List.mem_cons.mp he with rfl | he2
      · exact le_trans (hle _ (List.mem_cons_self ..)) (min_le_left ..)
      · rcases List.mem_cons.mp he2 with rfl | he3
        · exact le_trans (hle _ (List.mem_cons_self ..)) (min_le_right ..)
        · exact hle _ (List.mem_cons_of_mem _ he3)

theorem foldl_minUpd_neg_one (ds : List ℚ) (hds : ∀ d ∈ ds, 0 ≤ d) :
    (ds = [] ∧ ds.foldl minUpd (-1) = -1) ∨
    (ds.foldl minUpd (-1) ∈ ds ∧ ∀ d ∈ ds, ds.foldl minUpd (-1) ≤ d) := by
  cases ds with
  | nil => exact Or.inl ⟨rfl, rfl⟩
  | cons d ds =>
    right
    have hd0 : 0 ≤ d := hds d (List.mem_cons_self ..)
    have h1 : minUpd (-1) d = d := by
      unfold minUpd
      rw [if_pos (Or.inl (by norm_num))]
    simp only [List.foldl_cons, h1]
    exact foldl_minUpd_pos ds (fun e he => hds e (List.mem_cons_of_mem _ he))
      d hd0

/-- C7: on every in-range cell, the `DistToPeakMap` output holds a value
`v ≥ 0` iff some peak — a cell whose tile distance exceeds
`0.35·peak_min + 0.65·max(peak_min, neighborhood maximum)`, which is `isPeak`
at weight `13/20 = 0.65` — contains the cell in its clamped
`(2·radius+1)`-square neighborhood (equivalently, lies at Chebyshev distance
at most `radius`); in that case `v` is the minimum Chebyshev distance from
the cell to such a peak, and all other cells hold `-1`. -/
theorem c7_distToPeakMap_min_chebyshev (field : Img) (xs ys : ℕ)
    (hf : Rect field xs ys) (peak_min : ℚ) (radius : ℕ) (cy cx : ℕ)
    (hcy : cy < ys) (hcx : cx < xs) :
    (0 ≤ iGet (distToPeakMap field peak_min radius (13 / 20)) cy cx ↔
      ∃ py px, py < ys ∧ px < xs ∧
        isPeak field peak_min radius (13 / 20) py px ∧
        chebDist cy cx py px ≤ radius) ∧
    ((∃ py px, py < ys ∧ px < xs ∧
        isPeak field peak_min radius (13 / 20) py px ∧
        chebDist cy cx py px ≤ radius) →
      IsLeast {dq : ℚ | ∃ py px, py < ys ∧ px < xs ∧
          isPeak field peak_min radius (13 / 20) py px ∧
          chebDist cy cx py px ≤ radius ∧
          dq = ((chebDist cy cx py px : ℕ) : ℚ)}
        (iGet (distToPeakMap field peak_min radius (13 / 20)) cy cx)) ∧
    ((¬ ∃ py px, py < ys ∧ px < xs ∧
        isPeak field peak_min radius (13 / 20) py px ∧
        chebDist cy cx py px ≤ radius) →
      iGet (distToPeakMap field peak_min radius (13 / 20)) cy cx = -1) := by
  have hys : iYs field = ys := hf.1
  have hxs : iXs field = xs := rect_iXs hf (by omega)
  have h1 : iGet (distToPeakMap field peak_min radius (13 / 20)) cy cx =
      (((coordList ys xs).filter (fun p =>
          decide (isPeak field peak_min radius (13 / 20) p.1 p.2 ∧
            chebDist cy cx p.1 p.2 ≤ radius))).map
        (fun p => ((chebDist cy cx p.1 p.2 : ℕ) : ℚ))).foldl minUpd (-1) := by
    unfold distToPeakMap
    rw [hys, hxs]
    rw [iGet_foldl_peakStep field hys hxs peak_min radius (13 / 20) _ _
      (rect_replicate xs ys (-1)) cy cx hcy hcx]
    rw [iGet_replicate xs ys (-1) cy cx hcy hcx]
    exact foldl_peakUpd_eq_filterMap field peak_min radius (13 / 20) cy cx _ _
  set ds := (((coordList ys xs).filter (fun p =>
      decide (isPeak field peak_min radius (13 / 20) p.1 p.2 ∧
        chebDist cy cx p.1 p.2 ≤ radius))).map
    (fun p => ((chebDist cy cx p.1 p.2 : ℕ) : ℚ))) with hds_def
  have hmem_ds : ∀ dq : ℚ, dq ∈ ds ↔
      ∃ py px, py < ys ∧ px < xs ∧
        isPeak field peak_min radius (13 / 20) py px ∧
        chebDist cy cx py px ≤ radius ∧
        dq = ((chebDist cy cx py px : ℕ) : ℚ) := by
    intro dq
    rw [hds_def]
    simp only [List.mem_map, List.mem_filter, mem_coordList, decide_eq_true_eq]
    constructor
    · rintro ⟨p, ⟨⟨hp1, hp2⟩, hpk, hch⟩, rfl⟩
      exact ⟨p.1, p.2, hp1, hp2, hpk, hch, rfl⟩
    · rintro ⟨py, px, hp1, hp2, hpk, hch, rfl⟩
      exact ⟨(py, px), ⟨⟨hp1, hp2⟩, hpk, hch⟩, rfl⟩
  have hpos : ∀ d ∈ ds, 0 ≤ d := by
    intro d hd
    obtain ⟨py, px, _, _, _, _, rfl⟩ := (hmem_ds d).mp hd
    positivity
  rcases foldl_minUpd_neg_one ds hpos with ⟨hnil, hval⟩ | ⟨hmem, hle⟩
  · have hnopeak : ¬ ∃ py px, py < ys ∧ px < xs ∧
        isPeak field peak_min radius (13 / 20) py px ∧
        chebDist cy cx py px ≤ radius := by
      rintro ⟨py, px, hp1, hp2, hpk, hch⟩
      have : ((chebDist cy cx py px : ℕ) : ℚ) ∈ ds :=
        (hmem_ds _).mpr ⟨py, px, hp1, hp2, hpk, hch, rfl⟩
      rw [hnil] at this
      simp at this
    rw [h1, hval]
    refine ⟨iff_of_false (by norm_num) hnopeak,
      fun hcontra => absurd hcontra hnopeak, fun _ => rfl⟩
  · have hval0 : 0 ≤ ds.foldl minUpd (-1) := hpos _ hmem
    have hpeak : ∃ py px, py < ys ∧ px < xs ∧
        isPeak field peak_min radius (13 / 20) py px ∧
        chebDist cy cx py px ≤ radius := by
      obtain ⟨py, px, hp1, hp2, hpk, hch, _⟩ := (hmem_ds _).mp hmem
      exact ⟨py, px, hp1, hp2, hpk, hch⟩
    rw [h1]
    refine ⟨iff_of_true hval0 hpeak, fun _ => ⟨?_, ?_⟩,
      fun hcontra => absurd hpeak hcontra⟩
    · obtain ⟨py, px, hp1, hp2, hpk, hch, hq⟩ := (hmem_ds _).mp hmem
      exact ⟨py, px, hp1, hp2, hpk, hch, hq⟩
    · rintro dq ⟨py, px, hp1, hp2, hpk, hch, rfl⟩
      exact hle _ ((hmem_ds _).mpr ⟨py, px, hp1, hp2, hpk, hch, rfl⟩)

/-- Witness for C7 at the concrete 1-row field `[[1, 0]]`, threshold 0,
radius 1, cell `(0, 1)`. -/
theorem c7_distToPeakMap_min_chebyshev_witness :
    Rect [[(1 : ℚ), 0]] 2 1 ∧ (0 : ℕ) < 1 ∧ (1 : ℕ) < 2 ∧
    (0 ≤ iGet (distToPeakMap [[(1 : ℚ), 0]] 0 1 (13 / 20)) 0 1 ↔
      ∃ py px, py < 1 ∧ px < 2 ∧
        isPeak [[(1 : ℚ), 0]] 0 1 (13 / 20) py px ∧
        chebDist 0 1 py px ≤ 1) :=
  ⟨by constructor <;> decide, by decide, by decide,
    (c7_distToPeakMap_min_chebyshev [[(1 : ℚ), 0]] 2 1
      (by constructor <;> decide) 0 1 0 1 (by decide) (by decide)).1⟩

/-! ## `Optimize` (pik.cc lines 355-373)

```
template <class Eval>
int Optimize(Eval* eval, int minval, int maxval,
             int best_val, size_t* best_objval) {
  int start = minval;
  int end = maxval;
  for (int resolution = 16; resolution >= 1; resolution /= 4) {
    for (int val = start; val <= end; val += resolution) {
      size_t objval = (*eval)(val);
      if (objval < *best_objval) { best_val = val; *best_objval = objval; }
    }
    start = std::max(minval, best_val - resolution + 1);
    end = std::min(maxval, best_val + resolution - 1);
  }
  eval->SetVal(best_val);
  return best_val;
}
```
The evaluator is purified to `f : ℤ → ℕ` (`EvalGlobalYToB`/`EvalLocalYToB`
are deterministic functions of the candidate value; `SetVal` has no effect on
the returned best value). -/

/-- The visited grid points `start, start+res, ...` not exceeding `stop`. -/
def gridPts (start stop res : ℤ) : List ℤ :=
  if start ≤ stop ∧ 0 < res then
    (List.range (((stop - start) / res).toNat + 1)).map
      (fun i : ℕ => start + res * (i : ℤ))
  else []

/-- One resolution sweep with strict-improvement updates. -/
def sweep (f : ℤ → ℕ) (pts : List ℤ) (bv : ℤ) (bo : ℕ) : ℤ × ℕ :=
  pts.foldl (fun acc v => if f v < acc.2 then (v, f v) else acc) (bv, bo)

/-- One iteration of the resolution loop: sweep `[start..stop]`, then narrow
to `[best - res + 1, best + res - 1]` clamped to `[minval, maxval]`. -/
def optRound (f : ℤ → ℕ) (minval maxval : ℤ) (st : ℤ × ℤ × ℤ × ℕ)
    (res : ℤ) : ℤ × ℤ × ℤ × ℕ :=
  let bvo := sweep f (gridPts st.1 st.2.1 res) st.2.2.1 st.2.2.2
  (max minval (bvo.1 - res + 1), min maxval (bvo.1 + res - 1), bvo.1, bvo.2)

/-- `Optimize`; the resolution loop visits 16, 4, 1. -/
def optimize (f : ℤ → ℕ) (minval maxval best_val : ℤ)
    (best_objval : ℕ) : ℤ :=
  (([16, 4, 1] : List ℤ).foldl (optRound f minval maxval)
    (minval, maxval, best_val, best_objval)).2.2.1

/-- Weak ("monotone") unimodality on `[a, b]`: non-increasing up to some
minimizer, non-decreasing after it. -/
def MonotoneUnimodalOn (f : ℤ → ℕ) (a b : ℤ) : Prop :=
  ∃ m, a ≤ m ∧ m ≤ b ∧
    (∀ x y, a ≤ x → x ≤ y → y ≤ m → f y ≤ f x) ∧
    (∀ x y, m ≤ x → x ≤ y → y ≤ b → f x ≤ f y)

/-- Strict unimodality on `[a, b]` with valley `m`. -/
def StrictUnimodalOn (f : ℤ → ℕ) (a b m : ℤ) : Prop :=
  a ≤ m ∧ m ≤ b ∧
  (∀ x y, a ≤ x → x < y → y ≤ m → f y < f x) ∧
  (∀ x y, m ≤ x → x < y → y ≤ b → f x < f y)

/-- A weakly unimodal objective: a plateau of value 10 on `[0, 249]`, unique
global minimum 0 at 250, increasing afterwards. -/
def plateauObj (x : ℤ) : ℕ := if x < 250 then 10 else (x - 250).toNat

/-- C3, counterexample: on the monotone (weakly) unimodal objective
`plateauObj` over `[0, 255]` with starting point 120, `Optimize` returns 120,
not the unique global minimizer 250: the resolution-16 sweep never sees past
the plateau, so the narrowed ranges `[105,135]`, `[117,123]` miss the
minimum. -/
theorem c3_optimize_cex :
    MonotoneUnimodalOn plateauObj 0 255 ∧
    (∀ x, 0 ≤ x → x ≤ 255 → x ≠ 250 → plateauObj 250 < plateauObj x) ∧
    optimize plateauObj 0 255 120 (plateauObj 120) = 120 := by
  refine ⟨⟨250, by norm_num, by norm_num, ?_, ?_⟩, ?_, ?_⟩
  · intro x y hx hxy hym
    unfold plateauObj
    split_ifs <;> omega
  · intro x y hxm hxy hyb
    unfold plateauObj
    split_ifs <;> omega
  · intro x hx hb hne
    unfold plateauObj
    split_ifs <;> omega
  · decide

theorem mem_gridPts {start stop res p : ℤ} (hs : start ≤ stop) (hr : 0 < res) :
    p ∈ gridPts start stop res ↔
      ∃ i : ℕ, (i : ℤ) ≤ (stop - start) / res ∧ p = start + res * i := by
  unfold gridPts
  rw [if_pos ⟨hs, hr⟩]
  simp only [List.mem_map, List.mem_range]
  have hdiv : 0 ≤ (stop - start) / res := Int.ediv_nonneg (by omega) (by omega)
  constructor
  · rintro ⟨i, hi, rfl⟩
    exact ⟨i, by omega, rfl⟩
  · rintro ⟨i, hi, rfl⟩
    exact ⟨i, by omega, rfl⟩

theorem gridPts_subset {start stop res p : ℤ} (hs : start ≤ stop)
    (hr : 0 < res) (hp : p ∈ gridPts start stop res) :
    start ≤ p ∧ p ≤ stop := by
  obtain ⟨i, hi, rfl⟩ := (mem_gridPts hs hr).mp hp
  have h0 : 0 ≤ res * (i : ℤ) := by positivity
  have h1 : (i : ℤ) * res ≤ stop - start :=
    (Int.le_ediv_iff_mul_le hr).mp hi
  have h2 : res * (i : ℤ) ≤ stop - start := by rwa [mul_comm] at h1
  omega

theorem gridPts_left {start stop res m : ℤ} (hr : 0 < res)
    (hms : start ≤ m) (hme : m ≤ stop) :
    ∃ q ∈ gridPts start stop res, q ≤ m ∧ m < q + res := by
  have hs : start ≤ stop := le_trans hms hme
  have hd0 : 0 ≤ (m - start) / res := Int.ediv_nonneg (by omega) (by omega)
  refine ⟨start + res * (((m - start) / res).toNat : ℕ), ?_, ?_, ?_⟩
  · refine (mem_gridPts hs hr).mpr ⟨((m - start) / res).toNat, ?_, rfl⟩
    rw [Int.toNat_of_nonneg hd0]
    exact Int.ediv_le_ediv hr (by omega)
  · rw [Int.toNat_of_nonneg hd0]
    have h1 := Int.ediv_add_emod (m - start) res
    have h2 := Int.emod_nonneg (m - start) (by omega : res ≠ 0)
    omega
  · rw [Int.toNat_of_nonneg hd0]
    have h1 := Int.ediv_add_emod (m - start) res
    have h3 := Int.emod_lt_of_pos (m - start) hr
    omega

theorem gridPts_step {start stop res q : ℤ} (hs : start ≤ stop) (hr : 0 < res)
    (hq : q ∈ gridPts start stop res) (hqe : q + res ≤ stop) :
    q + res ∈ gridPts start stop res := by
  obtain ⟨i, hi, rfl⟩ := (mem_gridPts hs hr).mp hq
  refine (mem_gridPts hs hr).mpr ⟨i + 1, ?_, by push_cast; ring⟩
  rw [Int.le_ediv_iff_mul_le hr]
  have h1 : ((i : ℤ) + 1) * res = start + res * (i : ℤ) + res - start := by
    ring
  push_cast
  omega

theorem sweep_spec (f : ℤ → ℕ) (pts : List ℤ) (bv : ℤ) :
    (sweep f pts bv (f bv)).2 = f (sweep f pts bv (f bv)).1 ∧
    ((sweep f pts bv (f bv)).1 = bv ∨ (sweep f pts bv (f bv)).1 ∈ pts) ∧
    f (sweep f pts bv (f bv)).1 ≤ f bv ∧
    ∀ x ∈ pts, f (sweep f pts bv (f bv)).1 ≤ f x := by
  induction pts generalizing bv with
  | nil => exact ⟨rfl, Or.inl rfl, le_refl _, by simp⟩
  | cons p pts ih =>
    unfold sweep at ih ⊢
    simp only [List.foldl_cons]
    by_cases hp : f p < f bv
    · rw [show (if f p < ((bv, f bv) : ℤ × ℕ).2 then (p, f p) else (bv, f bv))
          = ((p, f p) : ℤ × ℕ) from by rw [if_pos hp]]
      obtain ⟨ha, hb, hc, hd⟩ := ih p
      refine ⟨ha, ?_, le_trans hc (le_of_lt hp), ?_⟩
      · rcases hb with h | h
        · exact Or.inr (by rw [h]; exact List.mem_cons_self ..)
        · exact Or.inr (List.mem_cons_of_mem _ h)
      · intro x hx
        rcases List.mem_cons.mp hx with rfl | hx2
        · exact hc
        · exact hd x hx2
    · rw [show (if f p < ((bv, f bv) : ℤ × ℕ).2 then (p, f p) else (bv, f bv))
          = ((bv, f bv) : ℤ × ℕ) from by rw [if_neg hp]]
      obtain ⟨ha, hb, hc, hd⟩ := ih bv
      refine ⟨ha, ?_, hc, ?_⟩
      · rcases hb with h | h
        · exact Or.inl h
        · exact Or.inr (List.mem_cons_of_mem _ h)
      · intro x hx
        rcases List.mem_cons.mp hx with rfl | hx2
        · exact le_trans hc (not_lt.mp hp)
        · exact hd x hx2

theorem optRound_spec (f : ℤ → ℕ) (a b m : ℤ)
    (hdec : ∀ x y, a ≤ x → x < y → y ≤ m → f y < f x)
    (hinc : ∀ x y, m ≤ x → x < y → y ≤ b → f x < f y)
    (start stop bv res : ℤ) (hr : 0 < res)
    (hsa : a ≤ start) (hsb : stop ≤ b) (hms : start ≤ m) (hme : m ≤ stop)
    (hbv1 : start ≤ bv) (hbv2 : bv ≤ stop) :
    ∃ g : ℤ,
      optRound f a b (start, stop, bv, f bv) res =
        (max a (g - res + 1), min b (g + res - 1), g, f g) ∧
      start ≤ g ∧ g ≤ stop ∧ m - res < g ∧ g < m + res := by
  have hs : start ≤ stop := le_trans hms hme
  obtain ⟨hfv, hmem, hbvle, hgrid⟩ := sweep_spec f (gridPts start stop res) bv
  have hgb : start ≤ (sweep f (gridPts start stop res) bv (f bv)).1 ∧
      (sweep f (gridPts start stop res) bv (f bv)).1 ≤ stop := by
    rcases hmem with h | h
    · rw [h]; exact ⟨hbv1, hbv2⟩
    · exact gridPts_subset hs hr h
  obtain ⟨q, hqmem, hqle, hqlt⟩ := gridPts_left hr hms hme
  have hlow : m - res < (sweep f (gridPts start stop res) bv (f bv)).1 := by
    by_contra hcon
    push_neg at hcon
    have hglt : (sweep f (gridPts start stop res) bv (f bv)).1 < q := by omega
    have hcontr := hdec (sweep f (gridPts start stop res) bv (f bv)).1 q
      (by omega) hglt hqle
    exact absurd (hgrid q hqmem) (not_le.mpr hcontr)
  have hhigh : (sweep f (gridPts start stop res) bv (f bv)).1 < m + res := by
    by_contra hcon
    push_neg at hcon
    by_cases hcase : q + res ≤ stop
    · have hq2 : q + res ∈ gridPts start stop res :=
        gridPts_step hs hr hqmem hcase
      by_cases heq : q + res = (sweep f (gridPts start stop res) bv (f bv)).1
      · have hqm : q = m := by omega
        have hcontr := hinc m (sweep f (gridPts start stop res) bv (f bv)).1
          (le_refl m) (by omega) (by omega)
        rw [← hqm] at hcontr
        exact absurd (hgrid q hqmem) (not_le.mpr hcontr)
      · have hcontr := hinc (q + res)
          (sweep f (gridPts start stop res) bv (f bv)).1
          (by omega) (by omega) (by omega)
        exact absurd (hgrid (q + res) hq2) (not_le.mpr hcontr)
    · omega
  refine ⟨(sweep f (gridPts start stop res) bv (f bv)).1, ?_,
    hgb.1, hgb.2, hlow, hhigh⟩
  unfold optRound
  show (max a ((sweep f (gridPts start stop res) bv (f bv)).1 - res + 1),
      min b ((sweep f (gridPts start stop res) bv (f bv)).1 + res - 1),
      (sweep f (gridPts start stop res) bv (f bv)).1,
      (sweep f (gridPts start stop res) bv (f bv)).2) =
    (max a ((sweep f (gridPts start stop res) bv (f bv)).1 - res + 1),
      min b ((sweep f (gridPts start stop res) bv (f bv)).1 + res - 1),
      (sweep f (gridPts start stop res) bv (f bv)).1,
      f (sweep f (gridPts start stop res) bv (f bv)).1)
  rw [hfv]

/-- C3 amended: on an objective that is strictly unimodal on
`[minval, maxval]` (strictly decreasing up to the valley `m`, strictly
increasing after it), starting from any `best_val` in range with
`best_objval` its objective value, `Optimize` returns the unique global
minimizer `m`: each sweep at resolution `res` lands within `res - 1` of `m`,
the narrowed range `[best - res + 1, best + res - 1]` clamped to the
interval still contains `m`, and the final resolution-1 sweep pins it. -/
theorem c3_optimize_strict_unimodal (f : ℤ → ℕ) (a b m bv : ℤ)
    (hu : StrictUnimodalOn f a b m) (hbv1 : a ≤ bv) (hbv2 : bv ≤ b) :
    optimize f a b bv (f bv) = m := by
  obtain ⟨ham, hmb, hdec, hinc⟩ := hu
  obtain ⟨g1, he1, hg1a, hg1b, hg1l, hg1h⟩ :=
    optRound_spec f a b m hdec hinc a b bv 16 (by norm_num) (le_refl a)
      (le_refl b) ham hmb hbv1 hbv2
  obtain ⟨g2, he2, hg2a, hg2b, hg2l, hg2h⟩ :=
    optRound_spec f a b m hdec hinc (max a (g1 - 16 + 1))
      (min b (g1 + 16 - 1)) g1 4 (by norm_num) (le_max_left ..)
      (min_le_left ..) (by omega) (by omega) (by omega) (by omega)
  obtain ⟨g3, he3, hg3a, hg3b, hg3l, hg3h⟩ :=
    optRound_spec f a b m hdec hinc (max a (g2 - 4 + 1)) (min b (g2 + 4 - 1))
      g2 1 (by norm_num) (le_max_left ..) (min_le_left ..)
      (by omega) (by omega) (by omega) (by omega)
  unfold optimize
  simp only [List.foldl_cons, List.foldl_nil]
  rw [he1, he2, he3]
  show g3 = m
  omega

/-- The strictly unimodal objective `|x - 250|`. -/
def vshapeObj (x : ℤ) : ℕ := (x - 250).natAbs

/-- Witness for the amended C3 theorem on `|x - 250|` over `[0, 255]`
starting at 120. -/
theorem c3_optimize_strict_unimodal_witness :
    StrictUnimodalOn vshapeObj 0 255 250 ∧ (0 : ℤ) ≤ 120 ∧ (120 : ℤ) ≤ 255 ∧
    optimize vshapeObj 0 255 120 (vshapeObj 120) = 250 := by
  have hu : StrictUnimodalOn vshapeObj 0 255 250 := by
    refine ⟨by norm_num, by norm_num, ?_, ?_⟩
    · intro x y hx hxy hym
      unfold vshapeObj
      omega
    · intro x y hxm hxy hyb
      unfold vshapeObj
      omega
  exact ⟨hu, by norm_num, by norm_num,
    c3_optimize_strict_unimodal vshapeObj 0 255 250 120 hu (by norm_num)
      (by norm_num)⟩

/-! ## `CompressToTargetSize` (pik.cc lines 429-472)

The image state entering the controller is fixed (the rate-controlled quant
field); after `ScaleQuantizationMap(quant_dc, quant_ac, scale, img)` the
quantizer state, and hence `img->Encode()`, is a deterministic function of
the applied scale.  `Encode` and the changed flag of `SetQuantField` are
external to this file's sources and modelled as an oracle; bytes are `ℕ`
lists. -/

structure TSOracle where
  /-- the bytes of `img->Encode()` after applying a scale -/
  enc : ℚ → List ℕ
  /-- the changed flag of `ScaleQuantizationMap` given the previously
  applied scale and the new one -/
  chg : ℚ → ℚ → Bool

structure TSPhase1Out where
  scale_bad : ℚ
  scale_good : ℚ
  candidate : List ℕ
  attempts : List (List ℕ)
  fit : Option (List ℕ)

/-- The halving loop (`for (int i = 0; i < 10; ++i)`): scale by
`scale_good`, encode; stop on a fitting candidate, else
`scale_bad = scale_good; scale_good *= 0.5`.  `attempts` instruments the
encodings tried; `fit` is the `compressed` string once non-empty. -/
def tsPhase1 (o : TSOracle) (tgt : ℕ) :
    ℕ → ℚ → ℚ → List ℕ → List (List ℕ) → TSPhase1Out
  | 0, sb, sg, cand, atts => ⟨sb, sg, cand, atts, none⟩
  | fuel + 1, _sb, sg, _cand, atts =>
    if (o.enc sg).length ≤ tgt then
      ⟨_sb, sg, o.enc sg, atts ++ [o.enc sg], some (o.enc sg)⟩
    else tsPhase1 o tgt fuel sg (sg / 2) (o.enc sg) (atts ++ [o.enc sg])

/-- The bisection loop (`for (int i = 0; i < 16; ++i)`): try the midpoint;
stop if `ScaleQuantizationMap` reports no change; keep the candidate when it
fits (moving `scale_good`), else move `scale_bad`. -/
def tsPhase2 (o : TSOracle) (tgt : ℕ) :
    ℕ → ℚ → ℚ → ℚ → List ℕ → List (List ℕ) → List (List ℕ) × List ℕ
  | 0, _, _, _, comp, atts => (atts, comp)
  | fuel + 1, sb, sg, prev, comp, atts =>
    if o.chg prev ((sb + sg) / 2) = false then (atts, comp)
    else
      if (o.enc ((sb + sg) / 2)).length ≤ tgt then
        tsPhase2 o tgt fuel sb ((sb + sg) / 2) ((sb + sg) / 2)
          (o.enc ((sb + sg) / 2)) (atts ++ [o.enc ((sb + sg) / 2)])
      else
        tsPhase2 o tgt fuel ((sb + sg) / 2) sg ((sb + sg) / 2)
          comp (atts ++ [o.enc ((sb + sg) / 2)])

/-- `CompressToTargetSize` (the overload taking the prepared image):
`scale_bad = scale_good = 1.0`, up to 10 halvings, then return the last
candidate when nothing fit, the first fit when `scale_good == 1.0`, and
otherwise up to 16 bisection steps.  Returns (attempt trace, result). -/
def compressToTargetSize (o : TSOracle) (tgt : ℕ) :
    List (List ℕ) × List ℕ :=
  let p1 := tsPhase1 o tgt 10 1 1 [] []
  match p1.fit with
  | none => (p1.attempts, p1.candidate)
  | some comp =>
    if p1.scale_good = 1 then (p1.attempts, comp)
    else tsPhase2 o tgt 16 p1.scale_bad p1.scale_good p1.scale_good comp
      p1.attempts

theorem tsPhase1_fit_fits (o : TSOracle) (tgt : ℕ) :
    ∀ (fuel : ℕ) (sb sg : ℚ) (cand : List ℕ) (atts : List (List ℕ))
      (c : List ℕ),
      (tsPhase1 o tgt fuel sb sg cand atts).fit = some c → c.length ≤ tgt
  | 0, sb, sg, cand, atts, c => by
    intro h
    simp [tsPhase1] at h
  | fuel + 1, sb, sg, cand, atts, c => by
    intro h
    unfold tsPhase1 at h
    by_cases hfit : (o.enc sg).length ≤ tgt
    · rw [if_pos hfit] at h
      simp only [Option.some.injEq] at h
      rw [← h]
      exact hfit
    · rw [if_neg hfit] at h
      exact tsPhase1_fit_fits o tgt fuel sg (sg / 2) (o.enc sg)
        (atts ++ [o.enc sg]) c h

theorem tsPhase1_none_attempts (o : TSOracle) (tgt : ℕ) :
    ∀ (fuel : ℕ) (sb sg : ℚ) (cand : List ℕ) (atts : List (List ℕ)),
      (tsPhase1 o tgt fuel sb sg cand atts).fit = none →
      ∀ a ∈ (tsPhase1 o tgt fuel sb sg cand atts).attempts,
        a ∈ atts ∨ tgt < a.length
  | 0, sb, sg, cand, atts => by
    intro _ a ha
    exact Or.inl ha
  | fuel + 1, sb, sg, cand, atts => by
    intro hnone a ha
    unfold tsPhase1 at hnone ha
    by_cases hfit : (o.enc sg).length ≤ tgt
    · rw [if_pos hfit] at hnone
      simp at hnone
    · rw [if_neg hfit] at hnone ha
      rcases tsPhase1_none_attempts o tgt fuel sg (sg / 2) (o.enc sg)
          (atts ++ [o.enc sg]) hnone a ha with h | h
      · rcases List.mem_append.mp h with h2 | h2
        · exact Or.inl h2
        · simp only [List.mem_singleton] at h2
          subst h2
          exact Or.inr (not_le.mp hfit)
      · exact Or.inr h

theorem tsPhase1_all_miss (o : TSOracle) (tgt : ℕ) :
    ∀ (fuel : ℕ) (sb sg : ℚ) (cand : List ℕ) (atts : List (List ℕ)),
      0 < fuel →
      (∀ j, j < fuel → tgt < (o.enc (sg / 2 ^ j)).length) →
      (tsPhase1 o tgt fuel sb sg cand atts).fit = none ∧
      (tsPhase1 o tgt fuel sb sg cand atts).candidate =
        o.enc (sg / 2 ^ (fuel - 1))
  | 0, sb, sg, cand, atts => by
    intro h
    omega
  | 1, sb, sg, cand, atts => by
    intro _ hmiss
    have h0 := hmiss 0 (by omega)
    rw [pow_zero, div_one] at h0
    unfold tsPhase1
    rw [if_neg (not_le.mpr h0)]
    refine ⟨rfl, ?_⟩
    rw [pow_zero, div_one]
    rfl
  | fuel + 2, sb, sg, cand, atts => by
    intro _ hmiss
    have h0 := hmiss 0 (by omega)
    rw [pow_zero, div_one] at h0
    unfold tsPhase1
    rw [if_neg (not_le.mpr h0)]
    have hshift : ∀ j, j < fuel + 1 → tgt < (o.enc (sg / 2 / 2 ^ j)).length := by
      intro j hj
      have := hmiss (j + 1) (by omega)
      rwa [show sg / 2 ^ (j + 1) = sg / 2 / 2 ^ j from by
        rw [div_div, pow_succ, mul_comm]] at this
    obtain ⟨ha, hb⟩ := tsPhase1_all_miss o tgt (fuel + 1) sg (sg / 2)
      (o.enc sg) (atts ++ [o.enc sg]) (by omega) hshift
    refine ⟨ha, ?_⟩
    rw [hb]
    congr 1
    rw [show fuel + 1 - 1 = fuel from rfl,
      show fuel + 2 - 1 = fuel + 1 from rfl,
      div_div, pow_succ, mul_comm 2 ((2 : ℚ) ^ fuel)]

theorem tsPhase2_fits (o : TSOracle) (tgt : ℕ) :
    ∀ (fuel : ℕ) (sb sg prev : ℚ) (comp : List ℕ) (atts : List (List ℕ)),
      comp.length ≤ tgt →
      (tsPhase2 o tgt fuel sb sg prev comp atts).2.length ≤ tgt
  | 0, sb, sg, prev, comp, atts => fun h => h
  | fuel + 1, sb, sg, prev, comp, atts => by
    intro h
    unfold tsPhase2
    split_ifs with h1 h2
    · exact h
    · exact tsPhase2_fits o tgt fuel sb ((sb + sg) / 2) ((sb + sg) / 2)
        (o.enc ((sb + sg) / 2)) (atts ++ [o.enc ((sb + sg) / 2)]) h2
    · exact tsPhase2_fits o tgt fuel ((sb + sg) / 2) sg ((sb + sg) / 2)
        comp (atts ++ [o.enc ((sb + sg) / 2)]) h

/-- C4: whenever any attempted encoding of the target-size controller fits
the byte budget, the returned bytes fit it; and when none of the (up to 10)
halving-phase attempts fits, the controller returns the last candidate
`enc(2⁻⁹)` - the 10th attempt - instead of looping further. -/
theorem c4_compressToTargetSize_fits (o : TSOracle) (tgt : ℕ) :
    ((∃ a ∈ (compressToTargetSize o tgt).1, a.length ≤ tgt) →
      (compressToTargetSize o tgt).2.length ≤ tgt) ∧
    ((∀ j, j < 10 → tgt < (o.enc (1 / 2 ^ j)).length) →
      (compressToTargetSize o tgt).2 = o.enc (1 / 2 ^ 9)) := by
  constructor
  · intro ⟨a, ha, hale⟩
    rcases hfit : (tsPhase1 o tgt 10 1 1 [] []).fit with _ | comp
    · have hatts := tsPhase1_none_attempts o tgt 10 1 1 [] [] hfit
      simp only [compressToTargetSize, hfit] at ha ⊢
      rcases hatts a ha with h | h
      · simp at h
      · omega
    · have hcomp : comp.length ≤ tgt :=
        tsPhase1_fit_fits o tgt 10 1 1 [] [] comp hfit
      simp only [compressToTargetSize, hfit]
      by_cases hsg : (tsPhase1 o tgt 10 1 1 [] []).scale_good = 1
      · rw [if_pos hsg]
        exact hcomp
      · rw [if_neg hsg]
        exact tsPhase2_fits o tgt 16 _ _ _ comp _ hcomp
  · intro hmiss
    obtain ⟨ha, hb⟩ := tsPhase1_all_miss o tgt 10 1 1 [] [] (by omega) hmiss
    simp only [compressToTargetSize, ha]
    exact hb

/-- Witness for C4 with the constant oracle encoding to two bytes at target
2: the first attempt fits, so the result fits. -/
theorem c4_compressToTargetSize_fits_witness :
    (compressToTargetSize ⟨fun _ => [7, 7], fun _ _ => true⟩ 2).2.length ≤ 2 :=
  (c4_compressToTargetSize_fits ⟨fun _ => [7, 7], fun _ _ => true⟩ 2).1
    ⟨[7, 7], by decide, by decide⟩

/-! ## `OpsinToPik` mode selection (pik.cc lines 564-605)

The four compression pipelines themselves are exercised elsewhere; here the
empty-image guard, the `if`/`else if` mode chain, the `NotImplemented`
failure and the header stage are embedded.  `PIK_FAILURE` messages become
error values; the header store (external `StoreHeader`) is a boolean
oracle. -/

inductive EncMode
  | perceptual
  | targetSize
  | constQuant
  | fast
deriving DecidableEq

inductive PikEncError
  | emptyImage
  | notImplemented
  | storeHeaderFailed
deriving DecidableEq

structure CompressParams where
  butteraugli_distance : ℚ
  target_bitrate : ℚ
  uniform_quant : ℚ
  fast_mode : Bool
  alpha_channel : Bool

/-- The `if`/`else if` chain selecting the compression mode. -/
def modeSelect (p : CompressParams) : Option EncMode :=
  if 0 ≤ p.butteraugli_distance then some EncMode.perceptual
  else if 0 < p.target_bitrate then some EncMode.targetSize
  else if 0 < p.uniform_quant then some EncMode.constQuant
  else if p.fast_mode then some EncMode.fast
  else none

/-- `OpsinToPik`, reduced to its control flow: empty-image guard, mode
selection (returning which pipeline ran), `StoreHeader`. -/
def opsinToPik (xsize ysize : ℕ) (p : CompressParams) (headerOk : Bool) :
    Except PikEncError EncMode :=
  if xsize = 0 ∨ ysize = 0 then Except.error PikEncError.emptyImage
  else
    match modeSelect p with
    | none => Except.error PikEncError.notImplemented
    | some m =>
      if headerOk then Except.ok m
      else Except.error PikEncError.storeHeaderFailed

/-- C5: on a non-empty image, the encoder activates exactly one of the four
modes, in the precedence order `butteraugli_distance ≥ 0`, then
`target_bitrate > 0`, then `uniform_quant > 0`, then `fast_mode`; it fails
with `NotImplemented` iff none of the four conditions holds. -/
theorem c5_opsinToPik_mode_selection (xsize ysize : ℕ) (p : CompressParams)
    (headerOk : Bool) (hx : xsize ≠ 0) (hy : ysize ≠ 0) :
    (opsinToPik xsize ysize p headerOk =
        Except.error PikEncError.notImplemented ↔
      ¬ 0 ≤ p.butteraugli_distance ∧ ¬ 0 < p.target_bitrate ∧
      ¬ 0 < p.uniform_quant ∧ p.fast_mode = false) ∧
    (modeSelect p = some EncMode.perceptual ↔ 0 ≤ p.butteraugli_distance) ∧
    (modeSelect p = some EncMode.targetSize ↔
      ¬ 0 ≤ p.butteraugli_distance ∧ 0 < p.target_bitrate) ∧
    (modeSelect p = some EncMode.constQuant ↔
      ¬ 0 ≤ p.butteraugli_distance ∧ ¬ 0 < p.target_bitrate ∧
      0 < p.uniform_quant) ∧
    (modeSelect p = some EncMode.fast ↔
      ¬ 0 ≤ p.butteraugli_distance ∧ ¬ 0 < p.target_bitrate ∧
      ¬ 0 < p.uniform_quant ∧ p.fast_mode = true) ∧
    (∀ m, opsinToPik xsize ysize p headerOk = Except.ok m ↔
      (modeSelect p = some m ∧ headerOk = true)) := by
  unfold opsinToPik modeSelect
  rw [if_neg (by omega : ¬ (xsize = 0 ∨ ysize = 0))]
  by_cases h1 : 0 ≤ p.butteraugli_distance <;>
    by_cases h2 : 0 < p.target_bitrate <;>
    by_cases h3 : 0 < p.uniform_quant <;>
    rcases hf : p.fast_mode with _ | _ <;>
    cases headerOk <;>
    simp [h1, h2, h3, hf]

/-- Witness for C5 at `butteraugli_distance = -1`, `target_bitrate = 3`,
other modes off, on a 2x2 image with a succeeding header store. -/
theorem c5_opsinToPik_mode_selection_witness :
    (2 : ℕ) ≠ 0 ∧ (2 : ℕ) ≠ 0 ∧
    (modeSelect ⟨-1, 3, 0, false, false⟩ = some EncMode.targetSize ↔
      ¬ (0 : ℚ) ≤ -1 ∧ (0 : ℚ) < 3) :=
  ⟨by decide, by decide,
    (c5_opsinToPik_mode_selection 2 2 ⟨-1, 3, 0, false, false⟩ true
      (by decide) (by decide)).2.2.1⟩

/-! ## `PikToPixelsT` (pik.cc lines 608-666)

Header parsing (`LoadHeader`), the compressed-image `Decode` and the alpha
sub-stream are external; they are modelled as oracles returning either a
result or a failure.  The flag constants are modelled from the spec:
`kAlpha = 1`; `kWebPLossless` is a reserved distinct bit (its numeric value
is not in the analysed sources; 2 is used, which does not affect the claim
about the dimension checks). -/

structure DecHeader where
  xsize : ℕ
  ysize : ℕ
  flags : ℕ

structure DecompressParams where
  max_num_pixels : ℕ
  check_decompressed_size : Bool

inductive PikDecError
  | emptyInput
  | loadHeaderFailed
  | truncatedHeader
  | invalidFormat
  | emptyImage
  | imageTooWide
  | imageTooBig
  | decodeFailed
  | alphaFailed
  | sizeMismatch
deriving DecidableEq

structure DecOracle where
  /-- `LoadHeader` + `Finalize`: a header and the header byte count, when
  parsing succeeds -/
  loadHeader : Option (DecHeader × ℕ)
  /-- `img.Decode`: bytes read on success -/
  imgDecode : Option ℕ
  /-- `PikToAlpha`: bytes read on success -/
  alphaDecode : Option ℕ

/-- `Header::kAlpha` (spec section 6). -/
def kAlphaFlag : ℕ := 1

/-- Modelled from the spec: `Header::kWebPLossless` is a reserved flag bit,
distinct from `kAlpha`; its numeric value is not in the analysed sources. -/
def kWebPLosslessFlag : ℕ := 2

/-- `static const uint32_t kMaxWidth = (1 << 25) - 1;` -/
def kMaxWidth : ℕ := 2 ^ 25 - 1

/-- `PikToPixelsT`: returns the decoded byte count on success. -/
def pikToPixelsT (params : DecompressParams) (compressedSize : ℕ)
    (o : DecOracle) : Except PikDecError ℕ :=
  if compressedSize = 0 then Except.error PikDecError.emptyInput
  else
    match o.loadHeader with
    | none => Except.error PikDecError.loadHeaderFailed
    | some (h, headerSize) =>
      if compressedSize < headerSize then
        Except.error PikDecError.truncatedHeader
      else if h.flags &&& kWebPLosslessFlag ≠ 0 then
        Except.error PikDecError.invalidFormat
      else if h.xsize = 0 ∨ h.ysize = 0 then
        Except.error PikDecError.emptyImage
      else if kMaxWidth < h.xsize then
        Except.error PikDecError.imageTooWide
      else if params.max_num_pixels < h.xsize * h.ysize then
        Except.error PikDecError.imageTooBig
      else
        match o.imgDecode with
        | none => Except.error PikDecError.decodeFailed
        | some bytesRead =>
          match (if h.flags &&& kAlphaFlag ≠ 0 then
              (o.alphaDecode).map (fun ab => headerSize + bytesRead + ab)
            else some (headerSize + bytesRead)) with
          | none => Except.error PikDecError.alphaFailed
          | some bytePos =>
            if params.check_decompressed_size ∧ bytePos ≠ compressedSize then
              Except.error PikDecError.sizeMismatch
            else Except.ok bytePos

/-- C6: whenever the parsed header has `xsize > 2^25 - 1` or
`xsize * ysize > max_num_pixels`, the decoder returns an error; and it gets
past these checks (in particular, succeeds) only when both limits hold. -/
theorem c6_pikToPixels_dimension_limits (params : DecompressParams)
    (compressedSize : ℕ) (o : DecOracle) (h : DecHeader) (headerSize : ℕ)
    (hload : o.loadHeader = some (h, headerSize)) :
    ((kMaxWidth < h.xsize ∨ params.max_num_pixels < h.xsize * h.ysize) →
      ∃ e, pikToPixelsT params compressedSize o = Except.error e) ∧
    (∀ n, pikToPixelsT params compressedSize o = Except.ok n →
      h.xsize ≤ kMaxWidth ∧ h.xsize * h.ysize ≤ params.max_num_pixels) := by
  unfold pikToPixelsT
  rw [hload]
  dsimp only
  by_cases h0 : compressedSize = 0
  · rw [if_pos h0]
    exact ⟨fun _ => ⟨_, rfl⟩, fun n hn => by simp at hn⟩
  rw [if_neg h0]
  by_cases h1 : compressedSize < headerSize
  · rw [if_pos h1]
    exact ⟨fun _ => ⟨_, rfl⟩, fun n hn => by simp at hn⟩
  rw [if_neg h1]
  by_cases h2 : h.flags &&& kWebPLosslessFlag ≠ 0
  · rw [if_pos h2]
    exact ⟨fun _ => ⟨_, rfl⟩, fun n hn => by simp at hn⟩
  rw [if_neg h2]
  by_cases h3 : h.xsize = 0 ∨ h.ysize = 0
  · rw [if_pos h3]
    exact ⟨fun _ => ⟨_, rfl⟩, fun n hn => by simp at hn⟩
  rw [if_neg h3]
  by_cases h4 : kMaxWidth < h.xsize
  · rw [if_pos h4]
    exact ⟨fun _ => ⟨_, rfl⟩, fun n hn => by simp at hn⟩
  rw [if_neg h4]
  by_cases h5 : params.max_num_pixels < h.xsize * h.ysize
  · rw [if_pos h5]
    exact ⟨fun _ => ⟨_, rfl⟩, fun n hn => by simp at hn⟩
  rw [if_neg h5]
  refine ⟨fun hbig => ?_, fun n _ => ⟨by omega, by omega⟩⟩
  omega

/-- Witness for C6: a 2^26-wide header makes the decoder fail. -/
theorem c6_pikToPixels_dimension_limits_witness :
    (DecOracle.mk (some (⟨2 ^ 26, 1, 0⟩, 4)) (some 1) none).loadHeader =
      some (⟨2 ^ 26, 1, 0⟩, 4) ∧
    (kMaxWidth < 2 ^ 26 ∨ (1000 : ℕ) < 2 ^ 26 * 1) ∧
    ∃ e, pikToPixelsT ⟨1000, false⟩ 20
      (DecOracle.mk (some (⟨2 ^ 26, 1, 0⟩, 4)) (some 1) none) =
      Except.error e :=
  ⟨rfl, by norm_num [kMaxWidth],
    (c6_pikToPixels_dimension_limits ⟨1000, false⟩ 20
      (DecOracle.mk (some (⟨2 ^ 26, 1, 0⟩, 4)) (some 1) none)
      ⟨2 ^ 26, 1, 0⟩ 4 rfl).1 (by norm_num [kMaxWidth])⟩

/-! ## `EvalLocalYToB` incremental histograms (pik.cc lines 301-353)

`HistogramBuilder`, `ACBlockProcessor`, `CoeffProcessor`, `QuantizeBlock` and
`ProcessImage3` are declared in the analysed headers but implemented outside
the analysed sources.  Modelled from the spec (sections 4.5 and 9): a block's
stored coefficients are a deterministic function of the Y-to-B value its tile
held when it was last requantized; after `ac_processor.Reset()` the symbols a
block contributes depend only on its own contents; `set_weight(-1)` /
`set_weight(+1)` subtract/add those symbol counts from/to the shared
histogram; DC coefficients and `PredictDC` residuals are unaffected by the
per-tile AC Y-to-B values, and `SetVal` never touches `dc_histo`. -/

structure LocalYToBModel where
  /-- block grid width `block_xsize` (blocks with `kBlockEdge*bx < xsize`) -/
  nbx : ℕ
  /-- block grid height `block_ysize` -/
  nby : ℕ
  /-- Modelled from the spec: the AC histogram contribution (integer count
  per symbol) of block `b` requantized under tile Y-to-B value `v`, summed
  over the three channels processed after `Reset()`. -/
  acCounts : ℕ × ℕ → ℕ → ℕ → ℤ
  /-- Modelled from the spec: the DC-residual histogram contribution of
  block `b`, independent of the per-tile AC Y-to-B values. -/
  dcCounts : ℕ × ℕ → ℕ → ℤ

structure LocalYToBState where
  /-- the Y-to-B value each block was last quantized with -/
  applied : ℕ × ℕ → ℕ
  acHisto : ℕ → ℤ
  dcHisto : ℕ → ℤ

/-- The image's blocks. -/
def blockGrid (mdl : LocalYToBModel) : Finset (ℕ × ℕ) :=
  Finset.range mdl.nbx ×ˢ Finset.range mdl.nby

/-- The blocks visited by `SetVal`'s double loop over the tile (factor
`kTileToBlockRatio = 8`), with the `xmin >= xsize || ymin >= ysize` skip for
blocks beyond the image. -/
def tileBlocks (mdl : LocalYToBModel) (tilex tiley : ℕ) : List (ℕ × ℕ) :=
  ((List.range 8).flatMap (fun iy => (List.range 8).map (fun ix =>
    (8 * tilex + ix, 8 * tiley + iy)))).filter
    (fun b => decide (b.1 < mdl.nbx ∧ b.2 < mdl.nby))

/-- One paired mutation of `SetVal` on one block: remove the block's current
contribution (`set_weight(-1)` + `ProcessBlock` on the three channels),
requantize it under `v` (`QuantizeBlock`), re-add the new contribution
(`set_weight(1)` + `ProcessBlock`). -/
def setValStep (mdl : LocalYToBModel) (v : ℕ) (st : LocalYToBState)
    (b : ℕ × ℕ) : LocalYToBState :=
  { applied := Function.update st.applied b v,
    acHisto := fun s =>
      st.acHisto s - mdl.acCounts b (st.applied b) s + mdl.acCounts b v s,
    dcHisto := st.dcHisto }

/-- `EvalLocalYToB::SetVal(ytob)` on tile `(tilex, tiley)`. -/
def setVal (mdl : LocalYToBModel) (tilex tiley : ℕ) (v : ℕ)
    (st : LocalYToBState) : LocalYToBState :=
  (tileBlocks mdl tilex tiley).foldl (setValStep mdl v) st

/-- The histograms equal the histograms freshly rebuilt over the whole
coefficient image in its current state (what `ProcessImage3` over
`img->coeffs()` resp. `PredictDC` computes in the constructor). -/
def FullHistos (mdl : LocalYToBModel) (st : LocalYToBState) : Prop :=
  (∀ s, st.acHisto s =
    ∑ b ∈ blockGrid mdl, mdl.acCounts b (st.applied b) s) ∧
  (∀ s, st.dcHisto s = ∑ b ∈ blockGrid mdl, mdl.dcCounts b s)

theorem setValStep_preserves (mdl : LocalYToBModel) (v : ℕ)
    (st : LocalYToBState) (b : ℕ × ℕ) (hb : b ∈ blockGrid mdl)
    (hst : ∀ s, st.acHisto s =
      ∑ b2 ∈ blockGrid mdl, mdl.acCounts b2 (st.applied b2) s) :
    ∀ s, (setValStep mdl v st b).acHisto s =
      ∑ b2 ∈ blockGrid mdl,
        mdl.acCounts b2 ((setValStep mdl v st b).applied b2) s := by
  intro s
  show st.acHisto s - mdl.acCounts b (st.applied b) s + mdl.acCounts b v s =
    ∑ b2 ∈ blockGrid mdl,
      mdl.acCounts b2 (Function.update st.applied b v b2) s
  have hfun : (fun b2 => mdl.acCounts b2 (Function.update st.applied b v b2) s) =
      Function.update (fun b2 => mdl.acCounts b2 (st.applied b2) s) b
        (mdl.acCounts b v s) := by
    funext b2
    by_cases hbb : b2 = b
    · subst hbb
      rw [Function.update_same, Function.update_same]
    · rw [Function.update_noteq hbb, Function.update_noteq hbb]
  calc st.acHisto s - mdl.acCounts b (st.applied b) s + mdl.acCounts b v s
      = (∑ b2 ∈ blockGrid mdl, mdl.acCounts b2 (st.applied b2) s) -
          mdl.acCounts b (st.applied b) s + mdl.acCounts b v s := by
        rw [hst s]
    _ = ∑ b2 ∈ blockGrid mdl,
          Function.update (fun b2 => mdl.acCounts b2 (st.applied b2) s) b
            (mdl.acCounts b v s) b2 := by
        rw [Finset.sum_update_of_mem hb]
        have hsplit := Finset.sum_eq_sum_diff_singleton_add hb
          (fun b2 => mdl.acCounts b2 (st.applied b2) s)
        omega
    _ = ∑ b2 ∈ blockGrid mdl,
          mdl.acCounts b2 (Function.update st.applied b v b2) s := by
        rw [hfun]

theorem setVal_fold_preserves (mdl : LocalYToBModel) (v : ℕ) :
    ∀ (L : List (ℕ × ℕ)) (st : LocalYToBState),
      (∀ b ∈ L, b ∈ blockGrid mdl) →
      (∀ s, st.acHisto s =
        ∑ b2 ∈ blockGrid mdl, mdl.acCounts b2 (st.applied b2) s) →
      (∀ s, (L.foldl (setValStep mdl v) st).acHisto s =
        ∑ b2 ∈ blockGrid mdl,
          mdl.acCounts b2 ((L.foldl (setValStep mdl v) st).applied b2) s) ∧
      (L.foldl (setValStep mdl v) st).dcHisto = st.dcHisto
  | [], st => fun _ hst => ⟨hst, rfl⟩
  | b :: L, st => by
    intro hL hst
    simp only [List.foldl_cons]
    have hb := hL b (List.mem_cons_self ..)
    obtain ⟨ha, hd⟩ := setVal_fold_preserves mdl v L (setValStep mdl v st b)
      (fun b2 hb2 => hL b2 (List.mem_cons_of_mem _ hb2))
      (setValStep_preserves mdl v st b hb hst)
    exact ⟨ha, hd⟩

/-- C8: after every `SetVal` of the local Y-to-B stage - for every tile and
every candidate value in `[0, 255]` - the incrementally maintained AC and DC
histograms equal the histograms freshly rebuilt over the entire coefficient
image in its current state (each block counted under the Y-to-B value it was
last quantized with), and the DC histogram is untouched; `EncodedSize` runs
only on such post-`SetVal` states, so it never observes partial state. -/
theorem c8_local_ytob_histograms_consistent (mdl : LocalYToBModel)
    (st : LocalYToBState) (tilex tiley : ℕ) (v : ℕ) (hv : v ≤ 255)
    (hst : FullHistos mdl st) :
    FullHistos mdl (setVal mdl tilex tiley v st) ∧
    (setVal mdl tilex tiley v st).dcHisto = st.dcHisto := by
  obtain ⟨hac, hdc⟩ := hst
  obtain ⟨ha, hd⟩ := setVal_fold_preserves mdl v (tileBlocks mdl tilex tiley)
    st (fun b hb => by
      unfold tileBlocks at hb
      unfold blockGrid
      have := List.of_mem_filter hb
      simp only [decide_eq_true_eq] at this
      exact Finset.mem_product.mpr
        ⟨Finset.mem_range.mpr this.1, Finset.mem_range.mpr this.2⟩) hac
  unfold setVal
  exact ⟨⟨ha, fun s => by rw [hd, hdc s]⟩, hd⟩

/-- Witness for C8 on a 1x1-block model with consistent initial state,
tile (0,0), candidate value 7. -/
theorem c8_local_ytob_histograms_consistent_witness :
    (7 : ℕ) ≤ 255 ∧
    FullHistos ⟨1, 1, fun _ w _ => (w : ℤ), fun _ _ => 1⟩
      ⟨fun _ => 120, fun _ => 120, fun _ => 1⟩ ∧
    FullHistos ⟨1, 1, fun _ w _ => (w : ℤ), fun _ _ => 1⟩
      (setVal ⟨1, 1, fun _ w _ => (w : ℤ), fun _ _ => 1⟩ 0 0 7
        ⟨fun _ => 120, fun _ => 120, fun _ => 1⟩) := by
  have h : FullHistos ⟨1, 1, fun _ w _ => (w : ℤ), fun _ _ => 1⟩
      ⟨fun _ => 120, fun _ => 120, fun _ => 1⟩ :=
    ⟨fun _ => rfl, fun _ => rfl⟩
  exact ⟨by decide, h,
    (c8_local_ytob_histograms_consistent _ _ 0 0 7 (by decide) h).1⟩

/-! ## `FindBestQuantization` (pik.cc lines 186-276)

The rate-control loop.  The butteraugli comparator is external and becomes
an oracle giving, for the n-th `Compare` call, the aggregate distance and
the per-pixel distance map (the spec requires only non-negativity and
monotonicity of that map).  `Quantizer::SetQuantField` is declared in the
analysed headers but implemented elsewhere; modelled from the spec
(section 4.2): it replaces the stored `(q_dc, q_ac)` pair and returns true
iff the pair actually changed.  The loop body - `TileDistMap`,
`DistToPeakMap`, `AdjustQuantVal`, the radius loop, the inner `while`, the
`kAdjSpeed`/`kQuantScale` tables and the outer-iteration control - is
embedded from the source.  The debug dumping (`FLAGS_dump_quant_state`,
`aux_out` heatmaps) does not affect control flow and is dropped.  `trace`
instruments the state with the `outer_iter` indices at which the
`kQuantScale[outer_iter]` multiply was applied (claim C9). -/

def kBlockEdge : ℕ := 8

def kMaxOuterIters : ℕ := 3

def kAdjSpeed : List ℚ := [1 / 10, 1 / 20, 1 / 40]

def kQuantScale : List ℚ := [0, 8 / 10, 9 / 10]

structure FBQParams where
  /-- `img->block_xsize()` -/
  bxs : ℕ
  /-- `img->block_ysize()` -/
  bys : ℕ
  /-- `butteraugli_target` -/
  target : ℚ
  /-- `max_butteraugli_iters` -/
  maxIters : ℕ
deriving DecidableEq

/-- `quant_params.initial_quant_val_dc / butteraugli_target` with
`initial_quant_val_dc = 1.0625` (compressed_image.h). -/
def kInitialQuantDC (p : FBQParams) : ℚ := (17 / 16) / p.target

/-- `quant_params.initial_quant_val_ac / butteraugli_target` with
`initial_quant_val_ac = 0.5625` (compressed_image.h). -/
def kInitialQuantAC (p : FBQParams) : ℚ := (9 / 16) / p.target

structure BAOracle where
  /-- distance and per-pixel distance map returned by the n-th
  `comparator.Compare` call -/
  compare : ℕ → ℚ × Img
  /-- `comparator.distance()` before any `Compare` call -/
  initDist : ℚ

structure FBQState where
  /-- `quant_field` -/
  qf : Img
  /-- the quantizer's stored `(q_dc, q_ac)` pair -/
  stored : ℚ × Img
  /-- `tile_distmap` -/
  tdm : Img
  /-- `comparator.distance()` -/
  dist : ℚ
  /-- `butteraugli_iter` -/
  iter : ℕ
  /-- `outer_iter` -/
  outer : ℕ
  /-- `quant_max` -/
  qmax : ℚ
  /-- instrumentation: the `outer_iter` values at which `kQuantScale` was
  applied -/
  trace : List ℕ
deriving DecidableEq

/-- A `bys` by `bxs` image built from a cell function. -/
def gridImg (bys bxs : ℕ) (g : ℕ → ℕ → ℚ) : Img :=
  (List.range bys).map (fun y => (List.range bxs).map (fun x => g y x))

/-- One scan of the quant field at a fixed radius: every block whose
dist-to-peak entry is `≥ 0` gets `AdjustQuantVal(&row_q[x], row_dist[x],
kAdjSpeed[outer_iter] * tile_distmap[y][x], quant_max)`; the write touches
only the cell being read, so the scan is pointwise.  Returns the new field
and whether any call returned true. -/
def adjustPass (p : FBQParams) (T : Img) (speed qmax : ℚ) (radius : ℕ)
    (qf : Img) : Img × Bool :=
  (gridImg p.bys p.bxs (fun y x =>
      if 0 ≤ iGet (distToPeakMap T p.target radius (13 / 20)) y x then
        (adjustQuantVal (iGet qf y x)
          (iGet (distToPeakMap T p.target radius (13 / 20)) y x)
          (speed * iGet T y x) qmax).1
      else iGet qf y x),
   (List.range p.bys).any (fun y => (List.range p.bxs).any (fun x =>
      decide (0 ≤ iGet (distToPeakMap T p.target radius (13 / 20)) y x) &&
        (adjustQuantVal (iGet qf y x)
          (iGet (distToPeakMap T p.target radius (13 / 20)) y x)
          (speed * iGet T y x) qmax).2)))

/-- `for (int radius = 1; radius <= 4 && !changed; ++radius)`. -/
def radiusLoop (p : FBQParams) (T : Img) (speed qmax : ℚ) (qf : Img) :
    Img × Bool :=
  [1, 2, 3, 4].foldl (fun acc radius =>
    if acc.2 then acc else adjustPass p T speed qmax radius acc.1) (qf, false)

/-- `while (!changed && comparator.distance() > butteraugli_target)`: run
the radius loop; `if (quant_max >= 8.0f) break; if (!changed) quant_max +=
0.5f;`.  The loop performs at most 10 iterations from `quant_max ≥ 4`
(each non-changing pass bumps `quant_max` by 0.5 toward the 8.0 break), so
the fuel of 11 is never exhausted. -/
def innerWhile (p : FBQParams) (T : Img) (dist speed : ℚ) :
    ℕ → Img × Bool × ℚ → Img × Bool × ℚ
  | 0, st => st
  | fuel + 1, st =>
    if st.2.1 = false ∧ p.target < dist then
      if 8 ≤ st.2.2 then
        ((radiusLoop p T speed st.2.2 st.1).1,
         (radiusLoop p T speed st.2.2 st.1).2, st.2.2)
      else if (radiusLoop p T speed st.2.2 st.1).2 then
        innerWhile p T dist speed fuel
          ((radiusLoop p T speed st.2.2 st.1).1,
           (radiusLoop p T speed st.2.2 st.1).2, st.2.2)
      else
        innerWhile p T dist speed fuel
          ((radiusLoop p T speed st.2.2 st.1).1,
           (radiusLoop p T speed st.2.2 st.1).2, st.2.2 + 1 / 2)
    else st

/-- The tail of one `for (;;)` iteration: the inner adjustment loop followed
by the `if (!changed)` outer-step (increment `outer_iter`, break at
`kMaxOuterIters`, else multiply the field by `kQuantScale[outer_iter]`).
`Sum.inr` is a `break` out of the loop with the final state. -/
def afterCompare (p : FBQParams) (s : FBQState) : FBQState ⊕ FBQState :=
  let r := innerWhile p s.tdm s.dist (kAdjSpeed.getD s.outer 0) 11
    (s.qf, false, s.qmax)
  let s2 := { s with qf := r.1, qmax := r.2.2 }
  if r.2.1 then Sum.inl s2
  else if s2.outer + 1 = kMaxOuterIters then
    Sum.inr { s2 with outer := s2.outer + 1 }
  else
    Sum.inl { s2 with
      qf := gridImg p.bys p.bxs (fun y x =>
        iGet r.1 y x * kQuantScale.getD (s2.outer + 1) 0),
      outer := s2.outer + 1,
      trace := s2.trace ++ [s2.outer + 1] }

/-- One `for (;;)` iteration of `FindBestQuantization`: `SetQuantField`
(modelled from spec section 4.2: store the pair, report bitwise change),
on change `Quantize` and - unless the iteration budget breaks the loop -
`Compare`, `TileDistMap` and the counter increment, then the shared tail. -/
def stepOuter (o : BAOracle) (p : FBQParams) (s : FBQState) :
    FBQState ⊕ FBQState :=
  if (kInitialQuantDC p, s.qf) ≠ s.stored then
    let s1 := { s with stored := (kInitialQuantDC p, s.qf) }
    if p.maxIters ≤ s1.iter then Sum.inr s1
    else
      afterCompare p { s1 with
        dist := (o.compare s1.iter).1,
        tdm := tileDistMap (o.compare s1.iter).2 kBlockEdge,
        iter := s1.iter + 1 }
  else afterCompare p s

/-- Entry state of `FindBestQuantization`: uniform
`quant_field = kInitialQuantAC`, `butteraugli_iter = 0`, `outer_iter = 0`,
`quant_max = 4.0`, a default-constructed (empty) `tile_distmap`, and the
caller's current quantizer state `stored0`. -/
def initFBQ (o : BAOracle) (p : FBQParams) (stored0 : ℚ × Img) : FBQState :=
  { qf := List.replicate p.bys (List.replicate p.bxs (kInitialQuantAC p)),
    stored := stored0, tdm := [], dist := o.initDist, iter := 0, outer := 0,
    qmax := 4, trace := [] }

/-- Iterate a loop body `n` times; `Sum.inr` is an executed `break`
(absorbing), `Sum.inl` a state still inside the loop. -/
def stepClosure {α : Type} (stp : α → α ⊕ α) : ℕ → α → α ⊕ α
  | 0, s => Sum.inl s
  | n + 1, s =>
    match stp s with
    | Sum.inl s2 => stepClosure stp n s2
    | Sum.inr f => Sum.inr f

/-- `FindBestQuantization` terminates: some number of loop iterations
reaches a `break`. -/
def FBQTerminates (o : BAOracle) (p : FBQParams) (stored0 : ℚ × Img) : Prop :=
  ∃ n f, stepClosure (stepOuter o p) n (initFBQ o p stored0) = Sum.inr f

/-- Every tile-distance map handed to the loop by the comparator is
strictly positive on the block grid. -/
def TdmPos (o : BAOracle) (p : FBQParams) : Prop :=
  ∀ n y x, y < p.bys → x < p.bxs →
    0 < iGet (tileDistMap (o.compare n).2 kBlockEdge) y x

theorem stepClosure_inl_add {α : Type} (stp : α → α ⊕ α) (b : ℕ) :
    ∀ (a : ℕ) (s t : α), stepClosure stp a s = Sum.inl t →
      stepClosure stp (a + b) s = stepClosure stp b t := by
  intro a
  induction a with
  | zero =>
    intro s t h
    rw [Nat.zero_add]
    have hst : s = t := by injection h
    rw [hst]
  | succ a ih =>
    intro s t h
    rw [show a + 1 + b = (a + b) + 1 from by omega]
    cases hs : stp s with
    | inl s2 =>
      simp only [stepClosure, hs] at h ⊢
      exact ih s2 t h
    | inr f =>
      simp only [stepClosure, hs] at h
      exact Sum.noConfusion h

theorem stepClosure_inr_add {α : Type} (stp : α → α ⊕ α) (b : ℕ) :
    ∀ (a : ℕ) (s : α) (f : α), stepClosure stp a s = Sum.inr f →
      stepClosure stp (a + b) s = Sum.inr f := by
  intro a
  induction a with
  | zero =>
    intro s f h
    exact Sum.noConfusion h
  | succ a ih =>
    intro s f h
    rw [show a + 1 + b = (a + b) + 1 from by omega]
    cases hs : stp s with
    | inl s2 =>
      simp only [stepClosure, hs] at h ⊢
      exact ih s2 f h
    | inr g =>
      simp only [stepClosure, hs] at h ⊢
      exact h

theorem stepClosure_mono_inr {α : Type} (stp : α → α ⊕ α) (s : α) (n m : ℕ)
    (f : α) (h : n ≤ m) (hn : stepClosure stp n s = Sum.inr f) :
    stepClosure stp m s = Sum.inr f := by
  obtain ⟨d, rfl⟩ : ∃ d, m = n + d := ⟨m - n, by omega⟩
  exact stepClosure_inr_add stp d n s f hn

theorem stepClosure_fixed {α : Type} (stp : α → α ⊕ α) (t : α)
    (hfix : stp t = Sum.inl t) : ∀ n, stepClosure stp n t = Sum.inl t
  | 0 => rfl
  | n + 1 => by
    show (match stp t with
      | Sum.inl s2 => stepClosure stp n s2
      | Sum.inr f => Sum.inr f) = Sum.inl t
    rw [hfix]
    exact stepClosure_fixed stp t hfix n

/-- A state that reaches a non-break fixed point of the loop body never
breaks: the loop runs forever. -/
theorem no_break_of_cycle {α : Type} (stp : α → α ⊕ α) (s t : α) (k : ℕ)
    (hreach : stepClosure stp k s = Sum.inl t)
    (hfix : stp t = Sum.inl t) :
    ∀ n f, stepClosure stp n s ≠ Sum.inr f := by
  intro n f hn
  rcases le_or_lt n k with h | h
  · have h2 := stepClosure_mono_inr stp s n k f h hn
    rw [hreach] at h2
    exact Sum.noConfusion h2
  · obtain ⟨m, rfl⟩ : ∃ m, n = k + m := ⟨n - k, by omega⟩
    rw [stepClosure_inl_add stp m k s t hreach,
      stepClosure_fixed stp t hfix m] at hn
    exact Sum.noConfusion hn

/-- The input of the C1 counterexample: a 16x8 image (a 2x1 block grid),
distance target 9/16, iteration budget 5, entering with quantizer state
`(1.0, [[1,1]])` (so the first `SetQuantField` reports a change). -/
def cexParams : FBQParams := ⟨2, 1, 9 / 16, 5⟩

/-- A butteraugli distance map with an isolated spike of 100 at pixel (0,0)
and exact zeros elsewhere (the comparator contract only requires
non-negative values). -/
def cexDistmap : Img :=
  ((100 : ℚ) :: List.replicate 15 0) ::
    List.replicate 7 (List.replicate 16 (0 : ℚ))

/-- The comparator oracle of the counterexample: every `Compare` reports
aggregate distance 10 (never below the target) with `cexDistmap`. -/
def cexOracle : BAOracle := ⟨fun _ => (10, cexDistmap), 0⟩

def cexStored : ℚ × Img := (1, [[1, 1]])

/-- The non-break fixed point the counterexample run reaches after two
iterations: the peak block's quant value is saturated at `quant_max = 4`
(so its `AdjustQuantVal` returns false), while the zero-distance neighbor
block keeps returning true without changing its value; `changed` stays
true, the field never changes, `SetQuantField` keeps returning false, the
stale distance stays above target, `outer_iter` and `quant_max` freeze. -/
def cexBad : FBQState :=
  ⟨[[4, 1]], (17 / 9, [[4, 1]]), [[100, 0]], 10, 2, 0, 4, []⟩

set_option maxRecDepth 1000000 in
unseal Rat.mul Rat.inv Rat.sub Rat.add in
theorem cex_reach : stepClosure (stepOuter cexOracle cexParams) 2
    (initFBQ cexOracle cexParams cexStored) = Sum.inl cexBad := by decide

set_option maxRecDepth 1000000 in
unseal Rat.mul Rat.inv Rat.sub Rat.add in
theorem cex_fix : stepOuter cexOracle cexParams cexBad = Sum.inl cexBad := by
  decide

/-- C1, counterexample: with a distance target `9/16 > 0` and iteration
budget `5 ≥ 0`, there is a comparator behavior within its contract
(non-negative distance maps) under which `FindBestQuantization` never
terminates: after two loop iterations the state repeats forever, with only
2 of the 5 budgeted butteraugli iterations used. -/
theorem c1_fbq_nontermination_cex :
    (0 : ℚ) < cexParams.target ∧ 0 ≤ cexParams.maxIters ∧
    ¬ FBQTerminates cexOracle cexParams cexStored := by
  refine ⟨by norm_num [cexParams], Nat.zero_le _, ?_⟩
  rintro ⟨n, f, hn⟩
  exact no_break_of_cycle (stepOuter cexOracle cexParams) _ cexBad 2
    cex_reach cex_fix n f hn

/-! ### Toward the amended termination theorem (C1)

With every comparator-produced tile distance strictly positive on the
block grid, an `AdjustQuantVal` call that returns true strictly increases
its cell, so a `changed` pass really changes the field and `SetQuantField`
returns true on the next iteration; the butteraugli counter then advances
every loop iteration and the budget check terminates the loop. -/

theorem adjustQuantVal_pos (q d factor qmax : ℚ) (hq : 0 < q)
    (hqm : 0 < qmax) : 0 < (adjustQuantVal q d factor qmax).1 := by
  unfold adjustQuantVal
  split_ifs with h
  · exact hq
  · have h2 : (0 : ℚ) < max (1 / qmax) (1 / q - factor / (d + 1)) :=
      lt_of_lt_of_le (one_div_pos.mpr hqm) (le_max_left _ _)
    exact one_div_pos.mpr h2

theorem adjustQuantVal_of_false (q d factor qmax : ℚ)
    (h : (adjustQuantVal q d factor qmax).2 = false) :
    (adjustQuantVal q d factor qmax).1 = q := by
  unfold adjustQuantVal at h ⊢
  split_ifs at h ⊢
  rfl

/-- A true-returning `AdjustQuantVal` call with a strictly positive
`factor` strictly increases `*q`. -/
theorem adjustQuantVal_lt (q d factor qmax : ℚ) (hq : 0 < q) (hd : 0 ≤ d)
    (hf : 0 < factor) (hqm : 0 < qmax)
    (ht : (adjustQuantVal q d factor qmax).2 = true) :
    q < (adjustQuantVal q d factor qmax).1 := by
  unfold adjustQuantVal at ht ⊢
  split_ifs at ht ⊢ with h
  push_neg at h
  have hqlt : q < qmax := lt_of_lt_of_le h (by linarith)
  have h1 : 1 / qmax < 1 / q := one_div_lt_one_div_of_lt hq hqlt
  have h2 : 1 / q - factor / (d + 1) < 1 / q := by
    have : 0 < factor / (d + 1) := div_pos hf (by linarith)
    linarith
  have hmaxlt : max (1 / qmax) (1 / q - factor / (d + 1)) < 1 / q :=
    max_lt h1 h2
  have hmaxpos : 0 < max (1 / qmax) (1 / q - factor / (d + 1)) :=
    lt_of_lt_of_le (one_div_pos.mpr hqm) (le_max_left _ _)
  show q < 1 / max (1 / qmax) (1 / q - factor / (d + 1))
  rw [lt_div_iff hmaxpos]
  calc q * max (1 / qmax) (1 / q - factor / (d + 1))
      < q * (1 / q) := mul_lt_mul_of_pos_left hmaxlt hq
    _ = 1 := mul_one_div_cancel (ne_of_gt hq)

theorem length_gridImg (bys bxs : ℕ) (g : ℕ → ℕ → ℚ) :
    (gridImg bys bxs g).length = bys := by
  unfold gridImg
  rw [List.length_map, List.length_range]

theorem rect_gridImg (bys bxs : ℕ) (g : ℕ → ℕ → ℚ) :
    Rect (gridImg bys bxs g) bxs bys := by
  refine ⟨length_gridImg .., fun row hr => ?_⟩
  unfold gridImg at hr
  obtain ⟨y, _, rfl⟩ := List.mem_map.mp hr
  rw [List.length_map, List.length_range]

theorem iGet_gridImg (bys bxs : ℕ) (g : ℕ → ℕ → ℚ) (y x : ℕ)
    (hy : y < bys) (hx : x < bxs) : iGet (gridImg bys bxs g) y x = g y x := by
  have h1 : y < (gridImg bys bxs g).length := by
    rw [length_gridImg]; exact hy
  have h2 : (gridImg bys bxs g).getD y [] =
      (List.range bxs).map (fun x => g y x) := by
    rw [List.getD_eq_getElem _ _ h1]
    unfold gridImg
    rw [List.getElem_map, List.getElem_range]
  have h3 : x < ((List.range bxs).map (fun x => g y x)).length := by
    rw [List.length_map, List.length_range]; exact hx
  unfold iGet
  rw [h2, List.getD_eq_getElem _ _ h3, List.getElem_map, List.getElem_range]

theorem gridImg_eq_of_rect {qf : Img} {bxs bys : ℕ} (h : Rect qf bxs bys)
    (g : ℕ → ℕ → ℚ) (hg : ∀ y x, y < bys → x < bxs → g y x = iGet qf y x) :
    gridImg bys bxs g = qf := by
  obtain ⟨hlen, hrow⟩ := h
  have hglen : (gridImg bys bxs g).length = bys := length_gridImg ..
  apply List.ext_getElem (by rw [hglen, hlen])
  intro y hy1 hy2
  have hy : y < bys := by rwa [hglen] at hy1
  have hrowy : qf[y].length = bxs := hrow _ (List.getElem_mem hy2)
  have hgrow : (gridImg bys bxs g)[y] =
      (List.range bxs).map (fun x => g y x) := by
    unfold gridImg
    rw [List.getElem_map, List.getElem_range]
  rw [hgrow]
  apply List.ext_getElem (by rw [List.length_map, List.length_range, hrowy])
  intro x hx1 hx2
  have hx : x < bxs := by rwa [List.length_map, List.length_range] at hx1
  rw [List.getElem_map, List.getElem_range, hg y x hy hx]
  unfold iGet
  rw [List.getD_eq_getElem _ _ (by omega : y < qf.length),
    List.getD_eq_getElem _ _ (by omega : x < qf[y].length)]

/-- The quant field is a `bys` by `bxs` rectangle of strictly positive
values. -/
def QfOK (p : FBQParams) (qf : Img) : Prop :=
  Rect qf p.bxs p.bys ∧ ∀ y x, y < p.bys → x < p.bxs → 0 < iGet qf y x

theorem kAdjSpeed_pos (o : ℕ) (h : o ≤ 2) : 0 < kAdjSpeed.getD o 0 := by
  interval_cases o <;> norm_num [kAdjSpeed]

theorem kQuantScale_spec (o : ℕ) (h1 : 1 ≤ o) (h2 : o ≤ 2) :
    0 < kQuantScale.getD o 0 ∧ kQuantScale.getD o 0 ≠ 1 := by
  interval_cases o <;> constructor <;> norm_num [kQuantScale]

theorem iGet_adjustPass (p : FBQParams) (T : Img) (speed qmax : ℚ)
    (radius : ℕ) (qf : Img) (y x : ℕ) (hy : y < p.bys) (hx : x < p.bxs) :
    iGet (adjustPass p T speed qmax radius qf).1 y x =
      if 0 ≤ iGet (distToPeakMap T p.target radius (13 / 20)) y x then
        (adjustQuantVal (iGet qf y x)
          (iGet (distToPeakMap T p.target radius (13 / 20)) y x)
          (speed * iGet T y x) qmax).1
      else iGet qf y x :=
  iGet_gridImg _ _ _ y x hy hx

theorem adjustPass_flag (p : FBQParams) (T : Img) (speed qmax : ℚ)
    (radius : ℕ) (qf : Img) :
    (adjustPass p T speed qmax radius qf).2 = true ↔
      ∃ y x, y < p.bys ∧ x < p.bxs ∧
        0 ≤ iGet (distToPeakMap T p.target radius (13 / 20)) y x ∧
        (adjustQuantVal (iGet qf y x)
          (iGet (distToPeakMap T p.target radius (13 / 20)) y x)
          (speed * iGet T y x) qmax).2 = true := by
  unfold adjustPass
  dsimp only
  simp only [List.any_eq_true, List.mem_range, Bool.and_eq_true,
    decide_eq_true_eq]
  constructor
  · rintro ⟨y, hy, x, hx, h1, h2⟩
    exact ⟨y, x, hy, hx, h1, h2⟩
  · rintro ⟨y, x, hy, hx, h1, h2⟩
    exact ⟨y, hy, x, hx, h1, h2⟩

theorem adjustPass_spec (p : FBQParams) (T : Img) (speed qmax : ℚ)
    (radius : ℕ) (qf : Img) (hqf : QfOK p qf) (hqm : 0 < qmax) :
    QfOK p (adjustPass p T speed qmax radius qf).1 ∧
    ((adjustPass p T speed qmax radius qf).2 = false →
      (adjustPass p T speed qmax radius qf).1 = qf) ∧
    (0 < speed → (∀ y x, y < p.bys → x < p.bxs → 0 < iGet T y x) →
      (adjustPass p T speed qmax radius qf).2 = true →
      (adjustPass p T speed qmax radius qf).1 ≠ qf) := by
  obtain ⟨hrect, hpos⟩ := hqf
  refine ⟨⟨rect_gridImg .., fun y x hy hx => ?_⟩, fun hfl => ?_,
    fun hsp hT hfl => ?_⟩
  · rw [iGet_adjustPass p T speed qmax radius qf y x hy hx]
    split_ifs with hd
    · exact adjustQuantVal_pos _ _ _ _ (hpos y x hy hx) hqm
    · exact hpos y x hy hx
  · have hnex : ¬ ∃ y x, y < p.bys ∧ x < p.bxs ∧
        0 ≤ iGet (distToPeakMap T p.target radius (13 / 20)) y x ∧
        (adjustQuantVal (iGet qf y x)
          (iGet (distToPeakMap T p.target radius (13 / 20)) y x)
          (speed * iGet T y x) qmax).2 = true := by
      rw [← adjustPass_flag]
      simp [hfl]
    refine gridImg_eq_of_rect hrect _ (fun y x hy hx => ?_)
    split_ifs with hd
    · apply adjustQuantVal_of_false
      cases hb : (adjustQuantVal (iGet qf y x)
          (iGet (distToPeakMap T p.target radius (13 / 20)) y x)
          (speed * iGet T y x) qmax).2 with
      | false => rfl
      | true => exact absurd ⟨y, x, hy, hx, hd, hb⟩ hnex
    · rfl
  · obtain ⟨y, x, hy, hx, hd, ht⟩ := (adjustPass_flag p T speed qmax radius qf).mp hfl
    intro heq
    have hlt := adjustQuantVal_lt (iGet qf y x)
      (iGet (distToPeakMap T p.target radius (13 / 20)) y x)
      (speed * iGet T y x) qmax (hpos y x hy hx) hd
      (mul_pos hsp (hT y x hy hx)) hqm ht
    have hcell : iGet (adjustPass p T speed qmax radius qf).1 y x =
        (adjustQuantVal (iGet qf y x)
          (iGet (distToPeakMap T p.target radius (13 / 20)) y x)
          (speed * iGet T y x) qmax).1 := by
      rw [iGet_adjustPass p T speed qmax radius qf y x hy hx, if_pos hd]
    rw [heq] at hcell
    rw [← hcell] at hlt
    exact lt_irrefl _ hlt

theorem foldl_radius_inv (p : FBQParams) (T : Img) (speed qmax : ℚ)
    (qf : Img) (hqm : 0 < qmax) :
    ∀ (rs : List ℕ) (acc : Img × Bool),
      QfOK p acc.1 → (acc.2 = false → acc.1 = qf) →
      (0 < speed → (∀ y x, y < p.bys → x < p.bxs → 0 < iGet T y x) →
        acc.2 = true → acc.1 ≠ qf) →
      QfOK p (rs.foldl (fun acc radius =>
        if acc.2 then acc else adjustPass p T speed qmax radius acc.1) acc).1 ∧
      ((rs.foldl (fun acc radius =>
        if acc.2 then acc else adjustPass p T speed qmax radius acc.1) acc).2
          = false →
        (rs.foldl (fun acc radius =>
          if acc.2 then acc else adjustPass p T speed qmax radius acc.1)
            acc).1 = qf) ∧
      (0 < speed → (∀ y x, y < p.bys → x < p.bxs → 0 < iGet T y x) →
        (rs.foldl (fun acc radius =>
          if acc.2 then acc else adjustPass p T speed qmax radius acc.1)
            acc).2 = true →
        (rs.foldl (fun acc radius =>
          if acc.2 then acc else adjustPass p T speed qmax radius acc.1)
            acc).1 ≠ qf) := by
  intro rs
  induction rs with
  | nil => exact fun acc h1 h2 h3 => ⟨h1, h2, h3⟩
  | cons r rs ih =>
    intro acc h1 h2 h3
    rw [List.foldl_cons]
    cases hacc : acc.2 with
    | true =>
      rw [if_pos rfl]
      exact ih acc h1 h2 h3
    | false =>
      rw [if_neg Bool.false_ne_true]
      have hap := adjustPass_spec p T speed qmax r acc.1 h1 hqm
      refine ih _ hap.1 (fun hf => (hap.2.1 hf).trans (h2 hacc)) ?_
      intro hsp hT hf hq
      exact hap.2.2 hsp hT hf (hq.trans (h2 hacc).symm)

theorem radiusLoop_spec (p : FBQParams) (T : Img) (speed qmax : ℚ)
    (qf : Img) (hqf : QfOK p qf) (hqm : 0 < qmax) :
    QfOK p (radiusLoop p T speed qmax qf).1 ∧
    ((radiusLoop p T speed qmax qf).2 = false →
      (radiusLoop p T speed qmax qf).1 = qf) ∧
    (0 < speed → (∀ y x, y < p.bys → x < p.bxs → 0 < iGet T y x) →
      (radiusLoop p T speed qmax qf).2 = true →
      (radiusLoop p T speed qmax qf).1 ≠ qf) :=
  foldl_radius_inv p T speed qmax qf hqm [1, 2, 3, 4] (qf, false)
    hqf (fun _ => rfl) (fun _ _ h => absurd h Bool.false_ne_true)

theorem innerWhile_spec (p : FBQParams) (T : Img) (dist speed : ℚ)
    (hsp : 0 < speed)
    (hT : ∀ y x, y < p.bys → x < p.bxs → 0 < iGet T y x) :
    ∀ (fuel : ℕ) (st : Img × Bool × ℚ) (qf0 : Img),
      QfOK p st.1 → 4 ≤ st.2.2 →
      (st.2.1 = false → st.1 = qf0) → (st.2.1 = true → st.1 ≠ qf0) →
      QfOK p (innerWhile p T dist speed fuel st).1 ∧
      4 ≤ (innerWhile p T dist speed fuel st).2.2 ∧
      ((innerWhile p T dist speed fuel st).2.1 = false →
        (innerWhile p T dist speed fuel st).1 = qf0) ∧
      ((innerWhile p T dist speed fuel st).2.1 = true →
        (innerWhile p T dist speed fuel st).1 ≠ qf0) := by
  intro fuel
  induction fuel with
  | zero => exact fun st qf0 h1 h2 h3 h4 => ⟨h1, h2, h3, h4⟩
  | succ fuel ih =>
    intro st qf0 h1 h2 h3 h4
    by_cases hc : st.2.1 = false ∧ p.target < dist
    · have hqm0 : (0 : ℚ) < st.2.2 := by linarith
      have hrl := radiusLoop_spec p T speed st.2.2 st.1 h1 hqm0
      by_cases h8 : (8 : ℚ) ≤ st.2.2
      · simp only [innerWhile, if_pos hc, if_pos h8]
        refine ⟨hrl.1, h2, fun hf => (hrl.2.1 hf).trans (h3 hc.1), ?_⟩
        intro ht hq
        exact hrl.2.2 hsp hT ht (hq.trans (h3 hc.1).symm)
      · cases hrlf : (radiusLoop p T speed st.2.2 st.1).2 with
        | true =>
          simp only [innerWhile, if_pos hc, if_neg h8, if_pos hrlf]
          refine ih ((radiusLoop p T speed st.2.2 st.1).1,
              (radiusLoop p T speed st.2.2 st.1).2, st.2.2) qf0
            hrl.1 h2 (fun hf => absurd hf ?_) ?_
          · dsimp only
            rw [hrlf]
            exact fun h => Bool.false_ne_true h.symm
          · intro _ hq
            exact hrl.2.2 hsp hT hrlf (hq.trans (h3 hc.1).symm)
        | false =>
          have hneg : ¬ ((radiusLoop p T speed st.2.2 st.1).2 = true) := by
            rw [hrlf]
            exact Bool.false_ne_true
          simp only [innerWhile, if_pos hc, if_neg h8, if_neg hneg]
          refine ih ((radiusLoop p T speed st.2.2 st.1).1,
              (radiusLoop p T speed st.2.2 st.1).2, st.2.2 + 1 / 2) qf0
            hrl.1 (by dsimp only; linarith) ?_ ?_
          · intro _
            exact (hrl.2.1 hrlf).trans (h3 hc.1)
          · intro hf
            exact absurd hf (by dsimp only; rw [hrlf]; exact Bool.false_ne_true)
    · simp only [innerWhile, if_neg hc]
      exact ⟨h1, h2, h3, h4⟩

/-- Reachable-state invariant of the outer loop under positive tile maps:
well-formed strictly positive quant field, `quant_max ≥ 4`,
`outer_iter ≤ 2`, iteration counter within budget, and the quantizer's
stored state differing from what `SetQuantField` would store next. -/
def FBQInv (p : FBQParams) (s : FBQState) : Prop :=
  QfOK p s.qf ∧ 4 ≤ s.qmax ∧ s.outer ≤ 2 ∧ s.iter ≤ p.maxIters ∧
  (kInitialQuantDC p, s.qf) ≠ s.stored

theorem afterCompare_eq (p : FBQParams) (s : FBQState) (r : Img × Bool × ℚ)
    (hr : innerWhile p s.tdm s.dist (kAdjSpeed.getD s.outer 0) 11
      (s.qf, false, s.qmax) = r) :
    afterCompare p s =
      if r.2.1 then Sum.inl { s with qf := r.1, qmax := r.2.2 }
      else if s.outer + 1 = kMaxOuterIters then
        Sum.inr { s with qf := r.1, qmax := r.2.2, outer := s.outer + 1 }
      else Sum.inl { s with
        qf := gridImg p.bys p.bxs (fun y x =>
          iGet r.1 y x * kQuantScale.getD (s.outer + 1) 0),
        qmax := r.2.2, outer := s.outer + 1,
        trace := s.trace ++ [s.outer + 1] } := by
  subst hr
  rfl

/-- One outer-loop step from an invariant state: a continuing step
advances the butteraugli counter by exactly one and keeps the invariant, a
breaking step leaves the counter within budget. -/
theorem stepOuter_spec (o : BAOracle) (p : FBQParams) (s : FBQState)
    (hbx : 0 < p.bxs) (hby : 0 < p.bys) (hT : TdmPos o p)
    (hinv : FBQInv p s) :
    (∀ t, stepOuter o p s = Sum.inl t → FBQInv p t ∧ t.iter = s.iter + 1) ∧
    ∀ f, stepOuter o p s = Sum.inr f → f.iter ≤ p.maxIters := by
  obtain ⟨qf, stored, tdm, dist, iter, outer, qmax, trace⟩ := s
  obtain ⟨hqf, hqm, houter, hiter, hne⟩ := hinv
  dsimp only at hqf hqm houter hiter hne
  by_cases hit : p.maxIters ≤ iter
  · have hstep : stepOuter o p ⟨qf, stored, tdm, dist, iter, outer, qmax, trace⟩
        = Sum.inr ⟨qf, (kInitialQuantDC p, qf), tdm, dist, iter, outer, qmax,
          trace⟩ := by
      unfold stepOuter
      dsimp only
      rw [if_pos hne, if_pos hit]
    refine ⟨fun t ht => ?_, fun f hf => ?_⟩
    · rw [hstep] at ht
      exact Sum.noConfusion ht
    · rw [hstep] at hf
      injection hf with hfe
      subst hfe
      exact hiter
  · have hiter1 : iter + 1 ≤ p.maxIters := by omega
    have hsp' : 0 < kAdjSpeed.getD outer 0 := kAdjSpeed_pos outer houter
    have hTt : ∀ y x, y < p.bys → x < p.bxs →
        0 < iGet (tileDistMap (o.compare iter).2 kBlockEdge) y x :=
      fun y x hy hx => hT iter y x hy hx
    have hr := innerWhile_spec p (tileDistMap (o.compare iter).2 kBlockEdge)
      ((o.compare iter).1) (kAdjSpeed.getD outer 0) hsp' hTt 11
      (qf, false, qmax) qf hqf hqm (fun _ => rfl)
      (fun h => absurd h Bool.false_ne_true)
    have hstep : stepOuter o p ⟨qf, stored, tdm, dist, iter, outer, qmax, trace⟩
        = afterCompare p ⟨qf, (kInitialQuantDC p, qf),
            tileDistMap (o.compare iter).2 kBlockEdge, (o.compare iter).1,
            iter + 1, outer, qmax, trace⟩ := by
      unfold stepOuter
      dsimp only
      rw [if_pos hne, if_neg hit]
    have hAC := afterCompare_eq p ⟨qf, (kInitialQuantDC p, qf),
      tileDistMap (o.compare iter).2 kBlockEdge, (o.compare iter).1,
      iter + 1, outer, qmax, trace⟩
      (innerWhile p (tileDistMap (o.compare iter).2 kBlockEdge)
        ((o.compare iter).1) (kAdjSpeed.getD outer 0) 11 (qf, false, qmax))
      rfl
    rw [hAC] at hstep
    cases hR1 : (innerWhile p (tileDistMap (o.compare iter).2 kBlockEdge)
        ((o.compare iter).1) (kAdjSpeed.getD outer 0) 11
        (qf, false, qmax)).2.1 with
    | true =>
      rw [if_pos hR1] at hstep
      refine ⟨fun t ht => ?_, fun f hf => ?_⟩
      · rw [hstep] at ht
        injection ht with hte
        subst hte
        refine ⟨⟨hr.1, hr.2.1, houter, hiter1, ?_⟩, rfl⟩
        intro hcontra
        exact hr.2.2.2 hR1 (congrArg Prod.snd hcontra)
      · rw [hstep] at hf
        exact Sum.noConfusion hf
    | false =>
      rw [if_neg (by rw [hR1]; exact Bool.false_ne_true)] at hstep
      have hR1' : (innerWhile p (tileDistMap (o.compare iter).2 kBlockEdge)
          ((o.compare iter).1) (kAdjSpeed.getD outer 0) 11
          (qf, false, qmax)).1 = qf := hr.2.2.1 hR1
      by_cases hout3 : outer + 1 = kMaxOuterIters
      · rw [if_pos hout3] at hstep
        refine ⟨fun t ht => ?_, fun f hf => ?_⟩
        · rw [hstep] at ht
          exact Sum.noConfusion ht
        · rw [hstep] at hf
          injection hf with hfe
          subst hfe
          exact hiter1
      · rw [if_neg hout3] at hstep
        have hout2 : outer + 1 ≤ 2 := by
          have h3 : outer + 1 ≠ 3 := hout3
          omega
        have hsc := kQuantScale_spec (outer + 1) (by omega) hout2
        have hq00 : 0 < iGet qf 0 0 := hqf.2 0 0 hby hbx
        refine ⟨fun t ht => ?_, fun f hf => ?_⟩
        · rw [hstep] at ht
          injection ht with hte
          subst hte
          refine ⟨⟨⟨rect_gridImg .., ?_⟩, hr.2.1, hout2, hiter1, ?_⟩, rfl⟩
          · intro y x hy hx
            rw [iGet_gridImg _ _ _ y x hy hx, hR1']
            exact mul_pos (hqf.2 y x hy hx) hsc.1
          · intro hcontra
            have hqeq := congrArg Prod.snd hcontra
            have h00 := congrArg (fun m => iGet m 0 0) hqeq
            dsimp only at h00
            rw [iGet_gridImg _ _ _ 0 0 hby hbx, hR1'] at h00
            exact hsc.2 (mul_left_cancel₀ (ne_of_gt hq00)
              (h00.trans (mul_one _).symm))
        · rw [hstep] at hf
          exact Sum.noConfusion hf

theorem initFBQ_inv (o : BAOracle) (p : FBQParams) (stored0 : ℚ × Img)
    (htar : 0 < p.target)
    (hs0 : stored0 ≠ (kInitialQuantDC p,
      List.replicate p.bys (List.replicate p.bxs (kInitialQuantAC p)))) :
    FBQInv p (initFBQ o p stored0) := by
  have hvpos : 0 < kInitialQuantAC p := div_pos (by norm_num) htar
  refine ⟨⟨⟨List.length_replicate .., fun row hr => ?_⟩, fun y x hy hx => ?_⟩,
    le_refl _, Nat.zero_le _, Nat.zero_le _, fun h => hs0 h.symm⟩
  · rw [List.eq_of_mem_replicate hr]
    exact List.length_replicate ..
  · rw [show (initFBQ o p stored0).qf =
      List.replicate p.bys (List.replicate p.bxs (kInitialQuantAC p)) from rfl]
    rw [iGet_replicate p.bxs p.bys _ y x hy hx]
    exact hvpos

theorem fbq_term_aux (o : BAOracle) (p : FBQParams)
    (hbx : 0 < p.bxs) (hby : 0 < p.bys) (hT : TdmPos o p) :
    ∀ (m : ℕ) (s : FBQState), FBQInv p s → p.maxIters + 1 - s.iter ≤ m →
      ∃ n f, n ≤ m ∧ stepClosure (stepOuter o p) n s = Sum.inr f ∧
        f.iter ≤ p.maxIters := by
  intro m
  induction m with
  | zero =>
    intro s hinv hm
    have := hinv.2.2.2.1
    omega
  | succ m ih =>
    intro s hinv hm
    have hspec := stepOuter_spec o p s hbx hby hT hinv
    cases hstep : stepOuter o p s with
    | inr f =>
      refine ⟨1, f, by omega, ?_, hspec.2 f hstep⟩
      simp only [stepClosure, hstep]
    | inl t =>
      obtain ⟨hinvt, hitert⟩ := hspec.1 t hstep
      have hmt : p.maxIters + 1 - t.iter ≤ m := by
        have := hinv.2.2.2.1
        omega
      obtain ⟨n, f, hn, hcl, hf⟩ := ih t hinvt hmt
      refine ⟨n + 1, f, by omega, ?_, hf⟩
      simp only [stepClosure, hstep]
      exact hcl

/-- C1, amended: under the additional assumptions that the image has at
least one block, that every tile-distance map produced by the comparator
is strictly positive on the block grid, and that the quantizer's incoming
state differs from the first `SetQuantField` argument (so the first call
reports a change), `FindBestQuantization` terminates: every loop iteration
then advances `butteraugli_iter`, the loop breaks within `N + 1`
iterations, and the final counter is at most `N` (hence at most the
`3·N + 3` of the claim).  Without the positivity assumption the loop can
run forever (see the C1 counterexample). -/
theorem c1_fbq_termination_amended (o : BAOracle) (p : FBQParams)
    (stored0 : ℚ × Img) (hbx : 0 < p.bxs) (hby : 0 < p.bys)
    (htar : 0 < p.target) (hT : TdmPos o p)
    (hs0 : stored0 ≠ (kInitialQuantDC p,
      List.replicate p.bys (List.replicate p.bxs (kInitialQuantAC p)))) :
    FBQTerminates o p stored0 ∧
    ∃ n f, n ≤ p.maxIters + 1 ∧
      stepClosure (stepOuter o p) n (initFBQ o p stored0) = Sum.inr f ∧
      f.iter ≤ p.maxIters ∧ f.iter ≤ 3 * p.maxIters + 3 := by
  have hinv := initFBQ_inv o p stored0 htar hs0
  obtain ⟨n, f, hn, hcl, hf⟩ := fbq_term_aux o p hbx hby hT (p.maxIters + 1)
    (initFBQ o p stored0) hinv (by omega)
  exact ⟨⟨n, f, hcl⟩, n, f, hn, hcl, hf, by omega⟩

def c1WitParams : FBQParams := ⟨1, 1, 1, 0⟩

def c1WitOracle : BAOracle := ⟨fun _ => (10, [[5]]), 0⟩

def c1WitStored : ℚ × Img := (0, [])

set_option maxRecDepth 100000 in
unseal Rat.mul Rat.inv Rat.sub Rat.add in
theorem c1WitTdm : 0 < iGet (tileDistMap [[5]] kBlockEdge) 0 0 := by decide

theorem c1_wit_ne : c1WitStored ≠ (kInitialQuantDC c1WitParams,
    List.replicate c1WitParams.bys (List.replicate c1WitParams.bxs
      (kInitialQuantAC c1WitParams))) := by
  intro h
  have h2 := congrArg (fun z => z.2.length) h
  simp [c1WitStored, c1WitParams] at h2

theorem c1_fbq_termination_amended_witness :
    FBQTerminates c1WitOracle c1WitParams c1WitStored ∧
    ∃ n f, n ≤ c1WitParams.maxIters + 1 ∧
      stepClosure (stepOuter c1WitOracle c1WitParams) n
        (initFBQ c1WitOracle c1WitParams c1WitStored) = Sum.inr f ∧
      f.iter ≤ c1WitParams.maxIters ∧
      f.iter ≤ 3 * c1WitParams.maxIters + 3 :=
  c1_fbq_termination_amended c1WitOracle c1WitParams c1WitStored
    (by decide) (by decide) (by norm_num [c1WitParams])
    (fun n y x hy hx => by
      have hy1 : y < 1 := hy
      have hx1 : x < 1 := hx
      have hy0 : y = 0 := by omega
      have hx0 : x = 0 := by omega
      subst hy0
      subst hx0
      exact c1WitTdm)
    c1_wit_ne

theorem stepClosure_invariant {α : Type} (stp : α → α ⊕ α) (P Q : α → Prop)
    (hstep : ∀ s, P s → (∀ t, stp s = Sum.inl t → P t) ∧
      (∀ f, stp s = Sum.inr f → Q f)) :
    ∀ (n : ℕ) (s : α), P s →
      (∀ t, stepClosure stp n s = Sum.inl t → P t) ∧
      (∀ f, stepClosure stp n s = Sum.inr f → Q f) := by
  intro n
  induction n with
  | zero =>
    intro s hs
    refine ⟨fun t ht => ?_, fun f hf => ?_⟩
    · have hst : s = t := by injection ht
      rw [← hst]
      exact hs
    · exact Sum.noConfusion hf
  | succ n ih =>
    intro s hs
    cases hstp : stp s with
    | inl s2 =>
      have h2 := ih s2 ((hstep s hs).1 s2 hstp)
      refine ⟨fun t ht => ?_, fun f hf => ?_⟩
      · exact h2.1 t (by simpa only [stepClosure, hstp] using ht)
      · exact h2.2 f (by simpa only [stepClosure, hstp] using hf)
    | inr f0 =>
      refine ⟨fun t ht => ?_, fun f hf => ?_⟩
      · rw [show stepClosure stp (n + 1) s = Sum.inr f0 from by
          simp only [stepClosure, hstp]] at ht
        exact Sum.noConfusion ht
      · rw [show stepClosure stp (n + 1) s = Sum.inr f0 from by
          simp only [stepClosure, hstp]] at hf
        have hff : f0 = f := by injection hf
        rw [← hff]
        exact (hstep s hs).2 f0 hstp

/-- The trace invariant: `outer_iter` stays at most 2 inside the loop, and
every recorded `kQuantScale` application index lies in `{1, 2}`. -/
theorem afterCompare_trace (p : FBQParams) (s : FBQState)
    (h : s.outer ≤ 2 ∧ ∀ i ∈ s.trace, 1 ≤ i ∧ i ≤ 2) :
    (∀ t, afterCompare p s = Sum.inl t →
      t.outer ≤ 2 ∧ ∀ i ∈ t.trace, 1 ≤ i ∧ i ≤ 2) ∧
    (∀ f, afterCompare p s = Sum.inr f → ∀ i ∈ f.trace, 1 ≤ i ∧ i ≤ 2) := by
  have hAC := afterCompare_eq p s _ rfl
  cases hR1 : (innerWhile p s.tdm s.dist (kAdjSpeed.getD s.outer 0) 11
      (s.qf, false, s.qmax)).2.1 with
  | true =>
    rw [if_pos hR1] at hAC
    refine ⟨fun t ht => ?_, fun f hf => ?_⟩
    · rw [hAC] at ht
      injection ht with hte
      rw [← hte]
      exact h
    · rw [hAC] at hf
      exact Sum.noConfusion hf
  | false =>
    rw [if_neg (by rw [hR1]; exact Bool.false_ne_true)] at hAC
    by_cases hout3 : s.outer + 1 = kMaxOuterIters
    · rw [if_pos hout3] at hAC
      refine ⟨fun t ht => ?_, fun f hf => ?_⟩
      · rw [hAC] at ht
        exact Sum.noConfusion ht
      · rw [hAC] at hf
        injection hf with hfe
        rw [← hfe]
        exact h.2
    · rw [if_neg hout3] at hAC
      have hout2 : s.outer + 1 ≤ 2 := by
        have h3 : s.outer + 1 ≠ 3 := hout3
        omega
      refine ⟨fun t ht => ?_, fun f hf => ?_⟩
      · rw [hAC] at ht
        injection ht with hte
        rw [← hte]
        refine ⟨hout2, fun i hi => ?_⟩
        rcases List.mem_append.mp hi with hi | hi
        · exact h.2 i hi
        · rw [List.mem_singleton.mp hi]
          omega
      · rw [hAC] at hf
        exact Sum.noConfusion hf

theorem stepOuter_trace (o : BAOracle) (p : FBQParams) (s : FBQState)
    (h : s.outer ≤ 2 ∧ ∀ i ∈ s.trace, 1 ≤ i ∧ i ≤ 2) :
    (∀ t, stepOuter o p s = Sum.inl t →
      t.outer ≤ 2 ∧ ∀ i ∈ t.trace, 1 ≤ i ∧ i ≤ 2) ∧
    (∀ f, stepOuter o p s = Sum.inr f → ∀ i ∈ f.trace, 1 ≤ i ∧ i ≤ 2) := by
  obtain ⟨qf, stored, tdm, dist, iter, outer, qmax, trace⟩ := s
  obtain ⟨houter, htr⟩ := h
  dsimp only at houter htr
  by_cases hne : (kInitialQuantDC p, qf) ≠ stored
  · by_cases hit : p.maxIters ≤ iter
    · have hstep : stepOuter o p ⟨qf, stored, tdm, dist, iter, outer, qmax,
          trace⟩ = Sum.inr ⟨qf, (kInitialQuantDC p, qf), tdm, dist, iter,
          outer, qmax, trace⟩ := by
        unfold stepOuter
        dsimp only
        rw [if_pos hne, if_pos hit]
      refine ⟨fun t ht => ?_, fun f hf => ?_⟩
      · rw [hstep] at ht
        exact Sum.noConfusion ht
      · rw [hstep] at hf
        injection hf with hfe
        rw [← hfe]
        exact htr
    · have hstep : stepOuter o p ⟨qf, stored, tdm, dist, iter, outer, qmax,
          trace⟩ = afterCompare p ⟨qf, (kInitialQuantDC p, qf),
            tileDistMap (o.compare iter).2 kBlockEdge, (o.compare iter).1,
            iter + 1, outer, qmax, trace⟩ := by
        unfold stepOuter
        dsimp only
        rw [if_pos hne, if_neg hit]
      rw [hstep]
      exact afterCompare_trace p _ ⟨houter, htr⟩
  · have hstep : stepOuter o p ⟨qf, stored, tdm, dist, iter, outer, qmax,
        trace⟩ = afterCompare p ⟨qf, stored, tdm, dist, iter, outer, qmax,
        trace⟩ := by
      unfold stepOuter
      dsimp only
      rw [if_neg hne]
    rw [hstep]
    exact afterCompare_trace p _ ⟨houter, htr⟩

/-- C9: in every execution of the rate-control loop, every index at which
the `quant_field *= kQuantScale[outer_iter]` branch fires is at least 1,
so the `kQuantScale[0] = 0.0` sentinel is never applied and the multiplier
is nonzero. -/
theorem c9_quant_scale_index_safe (o : BAOracle) (p : FBQParams)
    (stored0 : ℚ × Img) (n : ℕ) :
    (∀ t, stepClosure (stepOuter o p) n (initFBQ o p stored0) = Sum.inl t →
      ∀ i ∈ t.trace, 1 ≤ i ∧ kQuantScale.getD i 0 ≠ 0) ∧
    (∀ f, stepClosure (stepOuter o p) n (initFBQ o p stored0) = Sum.inr f →
      ∀ i ∈ f.trace, 1 ≤ i ∧ kQuantScale.getD i 0 ≠ 0) := by
  have hgen := stepClosure_invariant (stepOuter o p)
    (fun s => s.outer ≤ 2 ∧ ∀ i ∈ s.trace, 1 ≤ i ∧ i ≤ 2)
    (fun f => ∀ i ∈ f.trace, 1 ≤ i ∧ i ≤ 2)
    (fun s hs => stepOuter_trace o p s hs) n (initFBQ o p stored0)
    ⟨Nat.zero_le 2, fun i hi => absurd hi (List.not_mem_nil i)⟩
  refine ⟨fun t ht i hi => ?_, fun f hf i hi => ?_⟩
  · obtain ⟨h1, h2⟩ := (hgen.1 t ht).2 i hi
    exact ⟨h1, ne_of_gt (kQuantScale_spec i h1 h2).1⟩
  · obtain ⟨h1, h2⟩ := hgen.2 f hf i hi
    exact ⟨h1, ne_of_gt (kQuantScale_spec i h1 h2).1⟩

def c9WitParams : FBQParams := ⟨1, 1, 1, 2⟩

def c9WitOracle : BAOracle := ⟨fun _ => (0, [[0]]), 0⟩

/-- The state after one loop iteration of the C9 witness run: the inner
loop saw distance `0 ≤ target`, so `changed` stayed false, `outer_iter`
became 1 and the field was scaled by `kQuantScale[1] = 0.8`, recorded in
the trace. -/
def c9WitFinal : FBQState :=
  ⟨[[9 / 20]], (17 / 16, [[9 / 16]]), [[0]], 0, 1, 1, 4, [1]⟩

set_option maxRecDepth 1000000 in
unseal Rat.mul Rat.inv Rat.sub Rat.add in
theorem c9WitStep : stepClosure (stepOuter c9WitOracle c9WitParams) 1
    (initFBQ c9WitOracle c9WitParams (0, [])) = Sum.inl c9WitFinal := by
  decide

theorem c9_quant_scale_index_safe_witness :
    ∀ i ∈ c9WitFinal.trace, 1 ≤ i ∧ kQuantScale.getD i 0 ≠ 0 :=
  (c9_quant_scale_index_safe c9WitOracle c9WitParams (0, []) 1).1
    c9WitFinal c9WitStep
